import Mathlib

/-!
# Verification of the vault task-store / Kanban-board core

This file gives a shallow embedding of the reconciliation core of the
repository: the board codec (`parseBoardFile` / `writeBoardFile` and the
item mutation primitives `addToBoard`, `removeFromBoard`, `moveOnBoard`,
`renameOnBoard`), the sync algorithm `syncBoardWithFiles`, the task-store
operations `createTask`, `updateTask` (field part) and `parseTaskFile`,
and the follow-up overdue computation `daysAgo` / `isOverdue`.

Strings of the TypeScript source are modelled as `List Char` (`Str`), so
that the character-level codec functions can be reasoned about by
structural induction.  File I/O is modelled by explicit state passing:
the board file's parsed structure is a `List BoardColumn`, the tasks
folder is a list of named task records.
-/

/-- Characters of a line or of a whole text; TypeScript strings are
modelled as lists of characters. -/
abbrev Str := List Char

/-- Task status values of the frontmatter (`TaskFrontmatter["status"]`). -/
inductive Status where
  | backlog
  | next
  | working
  | blocked
  | done
  | archived
deriving DecidableEq, Repr

/-- Assignee values of the frontmatter. -/
inductive Assignee where
  | me
  | assistant
deriving DecidableEq, Repr

/-- Priority values of the frontmatter. -/
inductive Priority where
  | low
  | medium
  | high
deriving DecidableEq, Repr

/-- One checkbox line of the board: `- [x] [[title]] @{date}`. -/
structure BoardItem where
  title : Str
  completed : Bool
  date : Option Str
deriving DecidableEq, Repr

/-- One `## name` column of the board with its ordered items. -/
structure BoardColumn where
  name : Str
  items : List BoardItem
deriving DecidableEq, Repr

/-- The `STATUS_TO_COLUMN` record: which column label a status maps to.
Both `done` and `archived` map to the `Done` column. -/
def STATUS_TO_COLUMN : Status → Str
  | .backlog => "Backlog".toList
  | .next => "Next".toList
  | .working => "Working".toList
  | .blocked => "Blocked".toList
  | .done => "Done".toList
  | .archived => "Done".toList

/-- Membership test of a string in a list of strings (the `Set.has` /
`Array.includes` tests of the source). -/
def memStr (l : List Str) (s : Str) : Bool :=
  l.any fun x => decide (x = s)

/-- All item titles of a board, flattened column by column in order. -/
def allTitles (cols : List BoardColumn) : List Str :=
  (cols.flatMap (·.items)).map (·.title)

/-- Number of items of the board carrying a given title. -/
def titleCount (cols : List BoardColumn) (s : Str) : Nat :=
  (allTitles cols).countP fun x => decide (x = s)

/-- Names of the columns holding at least one item with the given title,
in column order. -/
def colsContaining (cols : List BoardColumn) (s : Str) : List Str :=
  (cols.filter fun c => c.items.any fun i => decide (i.title = s)).map (·.name)

/-- The first column holding an item with the given title (the scan of
`syncBoardWithFiles` that computes `currentCol`). -/
def findColumn (cols : List BoardColumn) (s : Str) : Option Str :=
  match cols with
  | [] => none
  | c :: rest =>
    if c.items.any fun i => decide (i.title = s) then some c.name
    else findColumn rest s

/-- Append the item to the column unless an item with the same title is
already there (the `alreadyExists` guard of `addToBoard`). -/
def addIfMissing (c : BoardColumn) (it : BoardItem) : BoardColumn :=
  if c.items.any fun i => decide (i.title = it.title) then c
  else { c with items := c.items ++ [it] }

/-- Apply `f` to the first column with the given name, leaving the others
untouched (the `columns.find` step of `addToBoard`). -/
def modifyFirstNamed (cols : List BoardColumn) (n : Str) (f : BoardColumn → BoardColumn) :
    List BoardColumn :=
  match cols with
  | [] => []
  | c :: rest =>
    if c.name = n then f c :: rest
    else c :: modifyFirstNamed rest n f

/-- The item `addToBoard` pushes: completed iff the status is `done` or
`archived`. -/
def newBoardItem (title : Str) (status : Status) (dueDate : Option Str) :
    BoardItem :=
  ⟨title, decide (status = .done) || decide (status = .archived), dueDate⟩

/-- `addToBoard` (structure part): resolve the target column from the
status, create it at the end of the board if absent, and append the item
unless an item with the same title is already in that column.  The source
wraps this mutation in a `parseBoardFile` / `writeBoardFile` round trip. -/
def addToBoard (cols : List BoardColumn) (title : Str) (status : Status)
    (dueDate : Option Str) : List BoardColumn :=
  if cols.any fun c => decide (c.name = STATUS_TO_COLUMN status) then
    modifyFirstNamed cols (STATUS_TO_COLUMN status)
      fun c => addIfMissing c (newBoardItem title status dueDate)
  else
    cols ++ [⟨STATUS_TO_COLUMN status, [newBoardItem title status dueDate]⟩]

/-- `removeFromBoard` (structure part): drop every item with the given
title from every column (`col.items.filter((i) => i.title !== title)`). -/
def removeFromBoard (cols : List BoardColumn) (title : Str) : List BoardColumn :=
  cols.map fun c => { c with items := c.items.filter fun i => decide (i.title ≠ title) }

/-- `moveOnBoard`: remove then re-add into the column of the new status. -/
def moveOnBoard (cols : List BoardColumn) (title : Str) (newStatus : Status)
    (dueDate : Option Str) : List BoardColumn :=
  addToBoard (removeFromBoard cols title) title newStatus dueDate

/-- `renameOnBoard` (structure part): retitle, in place, every item whose
title is `oldTitle`. -/
def renameOnBoard (cols : List BoardColumn) (oldTitle newTitle : Str) :
    List BoardColumn :=
  cols.map fun c =>
    { c with
      items := c.items.map fun i =>
        if i.title = oldTitle then { i with title := newTitle } else i }

/-- The whitespace class of the JavaScript `\s` / `String.trim`, restricted
to the characters that can occur in the texts at hand. -/
def isJsSpace (c : Char) : Bool :=
  c == ' ' || c == '\t' || c == '\n' || c == '\r' || c == '\x0B' ||
    c == '\x0C' || c == '\u00A0' || c == '\uFEFF'

/-- `String.prototype.trim`: drop whitespace from both ends. -/
def trimChars (l : Str) : Str :=
  ((l.dropWhile isJsSpace).reverse.dropWhile isJsSpace).reverse

/-- Helper of `collapseWs`: the flag records whether the previous
character was whitespace (i.e. the current run already emitted its
space). -/
def collapseWsAux : Bool → Str → Str
  | _, [] => []
  | inRun, c :: cs =>
    if isJsSpace c then
      if inRun then collapseWsAux true cs
      else ' ' :: collapseWsAux true cs
    else c :: collapseWsAux false cs

/-- `.replace(/\s+/g, " ")`: collapse every whitespace run to one space. -/
def collapseWs (l : Str) : Str :=
  collapseWsAux false l

/-- The characters `sanitizeFilename` strips: `[<>:"/\\|?*]`. -/
def badFileChar (c : Char) : Bool :=
  c == '<' || c == '>' || c == ':' || c == '"' || c == '/' || c == '\\' ||
    c == '|' || c == '?' || c == '*'

/-- `sanitizeFilename`: strip path-unsafe characters, collapse whitespace,
trim. -/
def sanitizeFilename (title : Str) : Str :=
  trimChars (collapseWs (title.filter fun c => !badFileChar c))

/-- The task frontmatter record (`TaskFrontmatter`). -/
structure TaskFrontmatter where
  status : Status
  assignee : Assignee
  priority : Priority
  project : Option Str
  due_date : Option Str
  blocked_by : Option Str
  follow_up_date : Option Str
  created_at : Str
  completed_at : Option Str
  tags : List Str
deriving DecidableEq, Repr

/-- The optional parameters of `updateTask`; `none` is an omitted field. -/
structure UpdateParams where
  title : Option Str := none
  description : Option Str := none
  assignee : Option Assignee := none
  status : Option Status := none
  priority : Option Priority := none
  project : Option Str := none
  dueDate : Option Str := none
  blockedBy : Option Str := none
  followUpDate : Option Str := none
deriving DecidableEq

/-- The `params.x !== undefined` / `params.x || undefined` pattern of
`updateTask`: an omitted parameter keeps the old value, a provided empty
string clears the field, any other value overwrites. -/
def orUndef (p old : Option Str) : Option Str :=
  match p with
  | none => old
  | some s => if s = [] then none else some s

/-- The frontmatter/body mutation of `updateTask`: each provided field
overwrites its frontmatter field, and `status = done` sets `completed_at`
to `now` only when `completed_at` is not already set.  The file rename and
the `renameOnBoard` / `moveOnBoard` calls of `updateTask` act on the file
and board stores and are modelled by the board primitives above. -/
def updateTaskFields (fm : TaskFrontmatter) (body : Str) (p : UpdateParams)
    (now : Str) : TaskFrontmatter × Str :=
  ({ status := p.status.getD fm.status
     assignee := p.assignee.getD fm.assignee
     priority := p.priority.getD fm.priority
     project := orUndef p.project fm.project
     due_date := orUndef p.dueDate fm.due_date
     blocked_by := orUndef p.blockedBy fm.blocked_by
     follow_up_date := orUndef p.followUpDate fm.follow_up_date
     created_at := fm.created_at
     completed_at :=
       if p.status = some .done ∧ fm.completed_at = none then some now
       else fm.completed_at
     tags := fm.tags }, p.description.getD body)

/-- A task file's stored content: frontmatter plus body. -/
structure TaskFileRec where
  frontmatter : TaskFrontmatter
  body : Str
deriving DecidableEq

/-- The vault as seen by the task-store operations: the active task files
(filename key without extension, paired with content) and the parsed
board. -/
structure VaultState where
  tasks : List (Str × TaskFileRec)
  board : List BoardColumn
deriving DecidableEq

/-- The parameters of `createTask`; `none` is an omitted field. -/
structure CreateParams where
  title : Str
  description : Option Str := none
  assignee : Option Assignee := none
  status : Option Status := none
  priority : Option Priority := none
  project : Option Str := none
  dueDate : Option Str := none
  blockedBy : Option Str := none
  followUpDate : Option Str := none
deriving DecidableEq

/-- The structured result payload of `createTask`: either the created
task or the `already exists` error record (returned, never thrown). -/
inductive CreateOutcome where
  | created (title : Str) (fm : TaskFrontmatter)
  | alreadyExists (title : Str)
deriving DecidableEq

/-- `createTask`: sanitize the title into the filename key, fail with a
structured `alreadyExists` payload when that file exists, otherwise write
the task file with `created_at := now` and the defaulted fields and add
the item to the board. -/
def createTask (st : VaultState) (p : CreateParams) (now : Str) :
    VaultState × CreateOutcome :=
  let title := sanitizeFilename p.title
  if st.tasks.any fun t => decide (t.1 = title) then
    (st, .alreadyExists title)
  else
    let fm : TaskFrontmatter :=
      { status := p.status.getD .backlog
        assignee := p.assignee.getD .me
        priority := p.priority.getD .medium
        project := p.project
        due_date := p.dueDate
        blocked_by := p.blockedBy
        follow_up_date := p.followUpDate
        created_at := now
        completed_at := none
        tags := [] }
    ({ tasks := st.tasks ++ [(title, ⟨fm, p.description.getD []⟩)],
       board := addToBoard st.board title fm.status p.dueDate },
     .created title fm)

/-- The raw frontmatter of a task file as read from disk, before the
defaulting of `parseTaskFile`: every field may be missing. -/
structure RawTaskFile where
  status : Option Status := none
  assignee : Option Assignee := none
  priority : Option Priority := none
  project : Option Str := none
  due_date : Option Str := none
  blocked_by : Option Str := none
  follow_up_date : Option Str := none
  created_at : Option Str := none
  completed_at : Option Str := none
  tags : Option (List Str) := none
  content : Str
deriving DecidableEq

/-- The result record of `parseTaskFile`. -/
structure ParsedTask where
  filename : Str
  title : Str
  frontmatter : TaskFrontmatter
  body : Str
deriving DecidableEq

/-- The `fm.created_at || new Date().toISOString()` default. -/
def createdAtOr (o : Option Str) (now : Str) : Str :=
  match o with
  | none => now
  | some s => if s = [] then now else s

/-- `parseTaskFile`: `none` input models a missing file (`existsSync`
false); any existing file parses, with every omitted frontmatter field
replaced by its default and the body trimmed. -/
def parseTaskFile (file : Option RawTaskFile) (filename now : Str) :
    Option ParsedTask :=
  match file with
  | none => none
  | some r =>
    some
      { filename := filename
        title := filename
        frontmatter :=
          { status := r.status.getD .backlog
            assignee := r.assignee.getD .me
            priority := r.priority.getD .medium
            project := orUndef r.project none
            due_date := orUndef r.due_date none
            blocked_by := orUndef r.blocked_by none
            follow_up_date := orUndef r.follow_up_date none
            created_at := createdAtOr r.created_at now
            completed_at := orUndef r.completed_at none
            tags := r.tags.getD [] }
        body := trimChars r.content }

/-- The follow-up record types. -/
inductive FollowUpType where
  | needs_reply
  | awaiting_reply
  | needs_action
deriving DecidableEq, Repr

/-- The fixed per-type overdue thresholds (`OVERDUE_THRESHOLDS`). -/
def OVERDUE_THRESHOLDS : FollowUpType → Int
  | .needs_reply => 1
  | .awaiting_reply => 3
  | .needs_action => 2

/-- Milliseconds per day (`1000 * 60 * 60 * 24`). -/
def msPerDay : Int := 1000 * 60 * 60 * 24

/-- `daysAgo`: `Math.floor((Date.now() - d.getTime()) / dayMs)`, on the
millisecond timestamps; `Int.fdiv` is floor division. -/
def daysAgo (nowMs dateMs : Int) : Int :=
  (nowMs - dateMs).fdiv msPerDay

/-- `isOverdue`: strictly more days old than the type's threshold. -/
def isOverdue (ty : FollowUpType) (nowMs dateMs : Int) : Bool :=
  decide (daysAgo nowMs dateMs > OVERDUE_THRESHOLDS ty)

/-- A task as `syncBoardWithFiles` sees it: title (= filename), status and
due date from `listTaskFiles`. -/
structure SyncTask where
  title : Str
  status : Status
  due_date : Option Str
deriving DecidableEq, Repr

/-- The result of one sync call: the final board state and the
`{added, moved, removed}` counts the call returns. -/
structure SyncResult where
  board : List BoardColumn
  added : Nat
  moved : Nat
  removed : Nat
deriving DecidableEq, Repr

/-- Pass 1 of `syncBoardWithFiles`: for each task, add it when its title
is not among the titles of the initial board snapshot; otherwise look up
the column currently holding it (on the re-parsed, current board) and
move it when that column differs from the one its status maps to. -/
def syncTasksLoop (initialTitles : List Str) (tasks : List SyncTask)
    (cols : List BoardColumn) (added moved : Nat) :
    List BoardColumn × Nat × Nat :=
  match tasks with
  | [] => (cols, added, moved)
  | t :: rest =>
    if memStr initialTitles t.title then
      match findColumn cols t.title with
      | some c =>
        if c ≠ STATUS_TO_COLUMN t.status then
          syncTasksLoop initialTitles rest
            (moveOnBoard cols t.title t.status t.due_date) added (moved + 1)
        else syncTasksLoop initialTitles rest cols added moved
      | none => syncTasksLoop initialTitles rest cols added moved
    else
      syncTasksLoop initialTitles rest
        (addToBoard cols t.title t.status t.due_date) (added + 1) moved

/-- Pass 2 of `syncBoardWithFiles`: walk the items of the post-pass-1
board snapshot and remove every item whose title is not a task title. -/
def pruneLoop (fileTitles : List Str) (snapshot : List Str)
    (cols : List BoardColumn) (removed : Nat) : List BoardColumn × Nat :=
  match snapshot with
  | [] => (cols, removed)
  | u :: rest =>
    if memStr fileTitles u then pruneLoop fileTitles rest cols removed
    else pruneLoop fileTitles rest (removeFromBoard cols u) (removed + 1)

/-- `syncBoardWithFiles`: one full sync pass over the given active tasks
and starting board, returning the converged board and the
`{added, moved, removed}` counts. -/
def syncBoardWithFiles (tasks : List SyncTask) (cols : List BoardColumn) :
    SyncResult :=
  let initialTitles := allTitles cols
  let fileTitles := tasks.map (·.title)
  let p1 := syncTasksLoop initialTitles tasks cols 0 0
  let snapshot := allTitles p1.1
  let p2 := pruneLoop fileTitles snapshot p1.1 0
  ⟨p2.1, p1.2.1, p1.2.2, p2.2⟩

/-- `text.split("\n")`. -/
def splitLines : Str → List Str
  | [] => [[]]
  | c :: rest =>
    match splitLines rest with
    | [] => [[c]]
    | l :: ls => if c = '\n' then [] :: l :: ls else (c :: l) :: ls

/-- `lines.join("\n")`. -/
def joinLines : List Str → Str
  | [] => []
  | [l] => l
  | l :: l' :: ls => l ++ '\n' :: joinLines (l' :: ls)

/-- The `---` delimiter line of the board file's frontmatter block. -/
def dashesLine : Str := "---".toList

/-- The lines after the first closing `---` delimiter line, if any. -/
def afterCloseLine : List Str → Option (List Str)
  | [] => none
  | l :: ls => if l = dashesLine then some ls else afterCloseLine ls

/-- The `matter(raw).content` step on lines: when the text opens with a
`---` line and a closing `---` line follows, the content is what comes
after the closing line (gray-matter keeps the newline that follows the
closing delimiter, hence the leading empty line); otherwise the whole
text is content. -/
def stripFrontmatter (lines : List Str) : List Str :=
  match lines with
  | [] => []
  | l0 :: rest =>
    if l0 = dashesLine then
      match afterCloseLine rest with
      | some after => [] :: after
      | none => l0 :: rest
    else l0 :: rest

/-- The column-header regex `^## (.+)$`: the text after `## `, which must
be nonempty.  (`trimChars` is applied by the caller, as in the source.) -/
def headerRest : Str → Option Str
  | '#' :: '#' :: ' ' :: rest => if rest = [] then none else some rest
  | _ => none

/-- Split at the first `]]` of the string: the lazy part of `(.+?)\]\]`
minus its mandatory first character. -/
def splitDBr : Str → Option (Str × Str)
  | [] => none
  | c :: cs =>
    if c = ']' ∧ cs.head? = some ']' then some ([], cs.tail)
    else (splitDBr cs).map fun p => (c :: p.1, p.2)

/-- The lazy group `(.+?)` before `\]\]`: at least one character, then
the shortest continuation ending right before a `]]`. -/
def titleSplit : Str → Option (Str × Str)
  | [] => none
  | c :: cs => (splitDBr cs).map fun p => (c :: p.1, p.2)

/-- Split at the first `}` of the string. -/
def braceSplit : Str → Option (Str × Str)
  | [] => none
  | c :: cs =>
    if c = '}' then some ([], cs)
    else (braceSplit cs).map fun p => (c :: p.1, p.2)

/-- The lazy group `(.+?)` before `\}`: at least one character, then the
shortest continuation ending right before a `}`. -/
def braceSplit1 : Str → Option (Str × Str)
  | [] => none
  | c :: cs => (braceSplit cs).map fun p => (c :: p.1, p.2)

/-- The optional date group `(?:\s*@\{(.+?)\})?` applied right after the
`]]` of an item line.  When it does not match, the item still parses with
no date. -/
def dateOf (r : Str) : Option Str :=
  match r.dropWhile isJsSpace with
  | '@' :: '{' :: r2 => (braceSplit1 r2).map (·.1)
  | _ => none

/-- The item-line regex `^- \[([ x])\] \[\[(.+?)\]\](?:\s*@\{(.+?)\})?`. -/
def itemOfLine : Str → Option BoardItem
  | '-' :: ' ' :: '[' :: f :: ']' :: ' ' :: '[' :: '[' :: rest =>
    if f = ' ' ∨ f = 'x' then
      (titleSplit rest).map fun p => ⟨p.1, decide (f = 'x'), dateOf p.2⟩
    else none
  | _ => none

/-- The line loop of `parseBoardFile`: a header line pushes the current
column and opens a new one; an item line appends to the current column;
anything else (before any header, or unrecognized) is skipped. -/
def parseColumns (acc : Option BoardColumn) : List Str → List BoardColumn
  | [] => acc.toList
  | l :: ls =>
    match headerRest l with
    | some rest => acc.toList ++ parseColumns (some ⟨trimChars rest, []⟩) ls
    | none =>
      match acc with
      | none => parseColumns none ls
      | some col =>
        match itemOfLine l with
        | some it => parseColumns (some ⟨col.name, col.items ++ [it]⟩) ls
        | none => parseColumns (some col) ls

/-- `parseBoardFile`: strip the frontmatter, split into lines, run the
column/item line loop. -/
def parseBoardFile (text : Str) : List BoardColumn :=
  parseColumns none (stripFrontmatter (splitLines text))

/-- The checkbox character of a serialized item. -/
def checkboxChar (b : Bool) : Char := if b then 'x' else ' '

/-- One serialized item line: `- [x] [[title]] @{date}`. -/
def itemLineOf (it : BoardItem) : Str :=
  '-' :: ' ' :: '[' :: checkboxChar it.completed :: ']' :: ' ' :: '[' :: '[' ::
    (it.title ++ ']' :: ']' ::
      (match it.date with
       | some d => ' ' :: '@' :: '{' :: (d ++ ['}'])
       | none => []))

/-- The `Done` column label. -/
def doneName : Str := "Done".toList

/-- The trailing marker line of the `Done` column. -/
def completeMarker : Str := "**Complete**".toList

/-- The fixed frontmatter block `writeBoardFile` always emits. -/
def kanbanHeaderLines : List Str :=
  [dashesLine, "kanban-plugin: basic".toList, dashesLine, []]

/-- The serialized lines of one column: header, blank line, the item
lines, the `**Complete**` marker after a blank line for the column
literally named `Done`, and a trailing blank line. -/
def columnLines (c : BoardColumn) : List Str :=
  ('#' :: '#' :: ' ' :: c.name) :: [] :: c.items.map itemLineOf
    ++ (if c.name = doneName then [[], completeMarker] else []) ++ [[]]

/-- All serialized lines of the board. -/
def boardLines (cols : List BoardColumn) : List Str :=
  kanbanHeaderLines ++ cols.flatMap columnLines

/-- `writeBoardFile`: deterministic serialization of the columns. -/
def writeBoardFile (cols : List BoardColumn) : Str :=
  joinLines (boardLines cols)

/-- A title that re-parses from its own serialization: the lazy `]]`
split recovers it before any subsequent text. -/
def TitleOk (t : Str) : Prop :=
  ∀ r, titleSplit (t ++ ']' :: ']' :: r) = some (t, r)

/-- A date that re-parses from its own serialization: the lazy `}` split
recovers it before any subsequent text. -/
def DateOk (d : Str) : Prop :=
  ∀ r, braceSplit1 (d ++ '}' :: r) = some (d, r)

/-- An item whose serialized line parses back to itself. -/
def ItemOk (it : BoardItem) : Prop :=
  TitleOk it.title ∧ '\n' ∉ it.title
    ∧ ∀ d, it.date = some d → DateOk d ∧ '\n' ∉ d

/-- A column as produced by `parseBoardFile`: trimmed newline-free name
and re-parseable items. -/
def ColOk (c : BoardColumn) : Prop :=
  trimChars c.name = c.name ∧ '\n' ∉ c.name ∧ ∀ it ∈ c.items, ItemOk it

/-! ## Helper lemmas about titles, counting and the board primitives -/

theorem memStr_iff (l : List Str) (s : Str) : memStr l s = true ↔ s ∈ l := by
  simp only [memStr, List.any_eq_true, decide_eq_true_eq]
  constructor
  · rintro ⟨x, hx, rfl⟩
    exact hx
  · intro h
    exact ⟨s, h, rfl⟩

theorem map_filter_comm {α β : Type} (f : α → β) (p : β → Bool) (l : List α) :
    (l.filter fun a => p (f a)).map f = (l.map f).filter p := by
  induction l with
  | nil => rfl
  | cons a l ih =>
    cases hp : p (f a) <;> simp [List.filter_cons, hp, ih]

theorem any_filter_of_imp {α : Type} (p q : α → Bool) (l : List α)
    (h : ∀ a, q a = true → p a = true) :
    ((l.filter p).any q) = l.any q := by
  induction l with
  | nil => rfl
  | cons a l ih =>
    cases hp : p a with
    | true => simp [List.filter_cons, hp, ih]
    | false =>
      have hq : q a = false := by
        cases hq : q a
        · rfl
        · exact absurd (h a hq) (by simp [hp])
      simp [List.filter_cons, hp, hq, ih]

theorem countP_eq_zero_iff (l : List Str) (s : Str) :
    (l.countP fun x => decide (x = s)) = 0 ↔ s ∉ l := by
  rw [List.countP_eq_zero]
  constructor
  · intro h hm
    simpa using h s hm
  · intro h a ha
    simp only [decide_eq_true_eq]
    rintro rfl
    exact h ha

theorem allTitles_cons (c : BoardColumn) (rest : List BoardColumn) :
    allTitles (c :: rest) = c.items.map (·.title) ++ allTitles rest := by
  simp [allTitles]

theorem titleCount_eq_zero_iff (cols : List BoardColumn) (s : Str) :
    titleCount cols s = 0 ↔ s ∉ allTitles cols :=
  countP_eq_zero_iff _ _

theorem colsContaining_cons (c : BoardColumn) (cols : List BoardColumn) (s : Str) :
    colsContaining (c :: cols) s
      = (if c.items.any fun i => decide (i.title = s) then [c.name] else [])
        ++ colsContaining cols s := by
  simp only [colsContaining, List.filter_cons]
  split <;> simp

theorem findColumn_eq_head (cols : List BoardColumn) (s : Str) :
    findColumn cols s = (colsContaining cols s).head? := by
  induction cols with
  | nil => rfl
  | cons c rest ih =>
    by_cases h : (c.items.any fun i => decide (i.title = s)) = true
    · simp [findColumn, h, colsContaining_cons]
    · simp only [Bool.not_eq_true] at h
      simp [findColumn, h, colsContaining_cons, ih]

theorem map_title_filter_ne (items : List BoardItem) (t : Str) :
    (items.filter fun i => decide (i.title ≠ t)).map (·.title)
      = (items.map (·.title)).filter fun s => decide (s ≠ t) :=
  map_filter_comm (·.title) (fun s => decide (s ≠ t)) items

theorem allTitles_removeFromBoard (cols : List BoardColumn) (t : Str) :
    allTitles (removeFromBoard cols t)
      = (allTitles cols).filter fun s => decide (s ≠ t) := by
  induction cols with
  | nil => rfl
  | cons c rest ih =>
    have hcons : removeFromBoard (c :: rest) t
        = { c with items := c.items.filter fun i => decide (i.title ≠ t) }
          :: removeFromBoard rest t := rfl
    rw [hcons, allTitles_cons, allTitles_cons, List.filter_append, ih,
      map_title_filter_ne]

theorem titleCount_removeFromBoard_self (cols : List BoardColumn) (t : Str) :
    titleCount (removeFromBoard cols t) t = 0 := by
  rw [titleCount, allTitles_removeFromBoard, countP_eq_zero_iff]
  simp [List.mem_filter]

theorem titleCount_removeFromBoard_ne (cols : List BoardColumn) (t s : Str)
    (h : s ≠ t) :
    titleCount (removeFromBoard cols t) s = titleCount cols s := by
  rw [titleCount, allTitles_removeFromBoard, List.countP_filter, titleCount]
  apply List.countP_congr
  intro a _
  by_cases ha : a = s
  · subst ha
    simp [h]
  · simp [ha]

theorem names_removeFromBoard (cols : List BoardColumn) (t : Str) :
    (removeFromBoard cols t).map (·.name) = cols.map (·.name) := by
  simp [removeFromBoard]

theorem any_title_filter_ne (items : List BoardItem) (t s : Str) (h : s ≠ t) :
    ((items.filter fun i => decide (i.title ≠ t)).any fun i => decide (i.title = s))
      = items.any fun i => decide (i.title = s) := by
  apply any_filter_of_imp
  intro a ha
  simp only [decide_eq_true_eq] at ha ⊢
  rw [ha]
  exact h

theorem colsContaining_removeFromBoard_ne (cols : List BoardColumn) (t s : Str)
    (h : s ≠ t) :
    colsContaining (removeFromBoard cols t) s = colsContaining cols s := by
  induction cols with
  | nil => rfl
  | cons c rest ih =>
    have hcons : removeFromBoard (c :: rest) t
        = { c with items := c.items.filter fun i => decide (i.title ≠ t) }
          :: removeFromBoard rest t := rfl
    rw [hcons, colsContaining_cons, colsContaining_cons, ih]
    have hany := any_title_filter_ne c.items t s h
    simp only [hany]

theorem allTitles_append (a b : List BoardColumn) :
    allTitles (a ++ b) = allTitles a ++ allTitles b := by
  simp [allTitles]

theorem titleCount_cons (c : BoardColumn) (rest : List BoardColumn) (s : Str) :
    titleCount (c :: rest) s
      = ((c.items.map (·.title)).countP fun x => decide (x = s))
        + titleCount rest s := by
  rw [titleCount, allTitles_cons, List.countP_append]
  rfl

theorem titleCount_append (a b : List BoardColumn) (s : Str) :
    titleCount (a ++ b) s = titleCount a s + titleCount b s := by
  rw [titleCount, allTitles_append, List.countP_append]
  rfl

theorem colsContaining_append (a b : List BoardColumn) (s : Str) :
    colsContaining (a ++ b) s = colsContaining a s ++ colsContaining b s := by
  simp [colsContaining, List.filter_append]

theorem countP_title_of_any_false {items : List BoardItem} {s : Str}
    (h : (items.any fun i => decide (i.title = s)) = false) :
    ((items.map (·.title)).countP fun x => decide (x = s)) = 0 := by
  rw [countP_eq_zero_iff]
  intro hmem
  rw [List.mem_map] at hmem
  obtain ⟨i, hi, hti⟩ := hmem
  have hany : (items.any fun i => decide (i.title = s)) = true :=
    List.any_eq_true.2 ⟨i, hi, by simp [hti]⟩
  rw [h] at hany
  exact Bool.noConfusion hany

theorem addIfMissing_name (c : BoardColumn) (it : BoardItem) :
    (addIfMissing c it).name = c.name := by
  unfold addIfMissing
  split <;> rfl

theorem addIfMissing_idem (c : BoardColumn) (it : BoardItem) :
    addIfMissing (addIfMissing c it) it = addIfMissing c it := by
  by_cases h : (c.items.any fun i => decide (i.title = it.title)) = true
  · simp [addIfMissing, h]
  · simp only [Bool.not_eq_true] at h
    simp [addIfMissing, h, List.any_append]

theorem addIfMissing_any_mono (c : BoardColumn) (it : BoardItem) (s : Str)
    (h : (c.items.any fun i => decide (i.title = s)) = true) :
    ((addIfMissing c it).items.any fun i => decide (i.title = s)) = true := by
  by_cases ha : (c.items.any fun i => decide (i.title = it.title)) = true
  · simp [addIfMissing, ha, h]
  · simp only [Bool.not_eq_true] at ha
    simp [addIfMissing, ha, List.any_append, h]

theorem modifyFirstNamed_names (cols : List BoardColumn) (n : Str)
    (f : BoardColumn → BoardColumn) (hf : ∀ c, (f c).name = c.name) :
    (modifyFirstNamed cols n f).map (·.name) = cols.map (·.name) := by
  induction cols with
  | nil => rfl
  | cons c rest ih =>
    by_cases h : c.name = n <;> simp [modifyFirstNamed, h, hf, ih]

theorem modifyFirstNamed_eq_self (cols : List BoardColumn) (n : Str)
    (f : BoardColumn → BoardColumn) (hf : ∀ c ∈ cols, c.name = n → f c = c) :
    modifyFirstNamed cols n f = cols := by
  induction cols with
  | nil => rfl
  | cons c rest ih =>
    by_cases h : c.name = n
    · simp [modifyFirstNamed, h, hf c (List.mem_cons_self c rest) h]
    · simp only [modifyFirstNamed, if_neg h]
      rw [ih fun c' hc' hn' => hf c' (List.mem_cons_of_mem _ hc') hn']

theorem modifyFirstNamed_comp (cols : List BoardColumn) (n : Str)
    (f g : BoardColumn → BoardColumn) (hf : ∀ c, (f c).name = c.name) :
    modifyFirstNamed (modifyFirstNamed cols n f) n g
      = modifyFirstNamed cols n fun c => g (f c) := by
  induction cols with
  | nil => rfl
  | cons c rest ih =>
    by_cases h : c.name = n
    · simp [modifyFirstNamed, h, hf]
    · simp [modifyFirstNamed, h, ih]

theorem titleCount_modify_add_ne (cols : List BoardColumn) (n : Str)
    (it : BoardItem) (s : Str) (h : s ≠ it.title) :
    titleCount (modifyFirstNamed cols n fun c => addIfMissing c it) s
      = titleCount cols s := by
  induction cols with
  | nil => rfl
  | cons c rest ih =>
    by_cases hn : c.name = n
    · simp only [modifyFirstNamed, if_pos hn]
      rw [titleCount_cons, titleCount_cons]
      congr 1
      by_cases ha : (c.items.any fun i => decide (i.title = it.title)) = true
      · simp [addIfMissing, ha]
      · simp only [Bool.not_eq_true] at ha
        simp [addIfMissing, ha, List.countP_append, Ne.symm h]
    · simp only [modifyFirstNamed, if_neg hn]
      rw [titleCount_cons, titleCount_cons, ih]

theorem colsContaining_modify_add_ne (cols : List BoardColumn) (n : Str)
    (it : BoardItem) (s : Str) (h : s ≠ it.title) :
    colsContaining (modifyFirstNamed cols n fun c => addIfMissing c it) s
      = colsContaining cols s := by
  induction cols with
  | nil => rfl
  | cons c rest ih =>
    by_cases hn : c.name = n
    · simp only [modifyFirstNamed, if_pos hn]
      rw [colsContaining_cons, colsContaining_cons]
      have hany : ((addIfMissing c it).items.any fun i => decide (i.title = s))
          = c.items.any fun i => decide (i.title = s) := by
        by_cases ha : (c.items.any fun i => decide (i.title = it.title)) = true
        · simp [addIfMissing, ha]
        · simp only [Bool.not_eq_true] at ha
          simp [addIfMissing, ha, List.any_append, Ne.symm h]
      rw [hany, addIfMissing_name]
    · simp only [modifyFirstNamed, if_neg hn]
      rw [colsContaining_cons, colsContaining_cons, ih]

theorem titleCount_addToBoard_ne (cols : List BoardColumn) (t : Str)
    (status : Status) (d : Option Str) (s : Str) (h : s ≠ t) :
    titleCount (addToBoard cols t status d) s = titleCount cols s := by
  unfold addToBoard
  split
  · exact titleCount_modify_add_ne cols _ _ s h
  · rw [titleCount_append, titleCount_cons]
    simp [titleCount, allTitles, newBoardItem, Ne.symm h]

theorem colsContaining_addToBoard_ne (cols : List BoardColumn) (t : Str)
    (status : Status) (d : Option Str) (s : Str) (h : s ≠ t) :
    colsContaining (addToBoard cols t status d) s = colsContaining cols s := by
  unfold addToBoard
  split
  · exact colsContaining_modify_add_ne cols _ _ s h
  · rw [colsContaining_append]
    have : colsContaining [⟨STATUS_TO_COLUMN status, [newBoardItem t status d]⟩] s
        = [] := by
      simp [colsContaining, newBoardItem, Ne.symm h]
    rw [this, List.append_nil]

theorem titleCount_eq_zero_of_absent (cols : List BoardColumn) (s : Str)
    (h : ∀ c ∈ cols, (c.items.any fun i => decide (i.title = s)) = false) :
    titleCount cols s = 0 := by
  induction cols with
  | nil => rfl
  | cons c rest ih =>
    rw [titleCount_cons, countP_title_of_any_false (h c (List.mem_cons_self _ _)),
      ih fun c' hc' => h c' (List.mem_cons_of_mem _ hc')]

theorem colsContaining_eq_nil_of_absent (cols : List BoardColumn) (s : Str)
    (h : ∀ c ∈ cols, (c.items.any fun i => decide (i.title = s)) = false) :
    colsContaining cols s = [] := by
  induction cols with
  | nil => rfl
  | cons c rest ih =>
    have h1 := h c (List.mem_cons_self _ _)
    have h2 := ih fun c' hc' => h c' (List.mem_cons_of_mem _ hc')
    simp [colsContaining_cons, h1, h2]

theorem absent_any_false (cols : List BoardColumn) (s : Str)
    (h : titleCount cols s = 0) :
    ∀ c ∈ cols, (c.items.any fun i => decide (i.title = s)) = false := by
  intro c hc
  rw [titleCount_eq_zero_iff] at h
  cases ha : c.items.any fun i => decide (i.title = s)
  · rfl
  · exfalso
    rw [List.any_eq_true] at ha
    obtain ⟨i, hi, hti⟩ := ha
    apply h
    simp only [allTitles, List.mem_map, List.mem_flatMap]
    exact ⟨i, ⟨c, hc, hi⟩, by simpa using hti⟩

theorem modify_add_absent (cols : List BoardColumn) (n : Str) (it : BoardItem)
    (habs : ∀ c ∈ cols, (c.items.any fun i => decide (i.title = it.title)) = false)
    (hex : (cols.any fun c => decide (c.name = n)) = true) :
    titleCount (modifyFirstNamed cols n fun c => addIfMissing c it) it.title = 1
    ∧ colsContaining (modifyFirstNamed cols n fun c => addIfMissing c it) it.title
      = [n] := by
  induction cols with
  | nil => exact absurd hex (by simp)
  | cons c rest ih =>
    have h1 := habs c (List.mem_cons_self _ _)
    have hrest := fun c' hc' => habs c' (List.mem_cons_of_mem c hc')
    by_cases hn : c.name = n
    · simp only [modifyFirstNamed, if_pos hn]
      have hitems : (addIfMissing c it).items = c.items ++ [it] := by
        simp [addIfMissing, h1]
      constructor
      · rw [titleCount_cons, titleCount_eq_zero_of_absent rest it.title hrest,
          hitems, List.map_append, List.countP_append,
          countP_title_of_any_false h1]
        simp
      · rw [colsContaining_cons,
          colsContaining_eq_nil_of_absent rest it.title hrest, hitems]
        have hany2 : ((c.items ++ [it]).any fun i => decide (i.title = it.title))
            = true := by
          simp [List.any_append]
        simp [hany2, addIfMissing_name, hn]
    · simp only [modifyFirstNamed, if_neg hn]
      have hex' : (rest.any fun c => decide (c.name = n)) = true := by
        rw [List.any_cons] at hex
        simpa [hn] using hex
      obtain ⟨ihc, ihm⟩ := ih hrest hex'
      constructor
      · rw [titleCount_cons, countP_title_of_any_false h1, ihc]
      · rw [colsContaining_cons, ihm]
        simp [h1]

theorem addToBoard_absent (cols : List BoardColumn) (t : Str) (status : Status)
    (d : Option Str) (h : titleCount cols t = 0) :
    titleCount (addToBoard cols t status d) t = 1
    ∧ colsContaining (addToBoard cols t status d) t
      = [STATUS_TO_COLUMN status] := by
  have habs := absent_any_false cols t h
  unfold addToBoard
  by_cases hex : (cols.any fun c => decide (c.name = STATUS_TO_COLUMN status))
      = true
  · rw [if_pos hex]
    exact modify_add_absent cols _ (newBoardItem t status d) habs hex
  · rw [if_neg hex]
    constructor
    · rw [titleCount_append, h]
      simp [titleCount, allTitles, newBoardItem]
    · rw [colsContaining_append, colsContaining_eq_nil_of_absent cols t habs]
      simp [colsContaining, newBoardItem]

theorem colsContaining_modify_add_mono (cols : List BoardColumn) (n : Str)
    (it : BoardItem) (s : Str) :
    ∀ m, m ∈ colsContaining cols s
      → m ∈ colsContaining (modifyFirstNamed cols n fun c => addIfMissing c it) s := by
  induction cols with
  | nil =>
    intro m hm
    simp [colsContaining] at hm
  | cons c rest ih =>
    intro m hm
    by_cases hn : c.name = n
    · simp only [modifyFirstNamed, if_pos hn]
      rw [colsContaining_cons] at hm ⊢
      rcases List.mem_append.1 hm with h1 | h2
      · have hc : (c.items.any fun i => decide (i.title = s)) = true := by
          by_contra hfalse
          simp only [Bool.not_eq_true] at hfalse
          simp [hfalse] at h1
        have hm1 : m = c.name := by
          simp [hc] at h1
          exact h1
        refine List.mem_append.2 (Or.inl ?_)
        rw [addIfMissing_any_mono c it s hc, addIfMissing_name]
        simp [hm1]
      · exact List.mem_append.2 (Or.inr h2)
    · simp only [modifyFirstNamed, if_neg hn]
      rw [colsContaining_cons] at hm ⊢
      rcases List.mem_append.1 hm with h1 | h2
      · exact List.mem_append.2 (Or.inl h1)
      · exact List.mem_append.2 (Or.inr (ih m h2))

theorem colsContaining_addToBoard_mono (cols : List BoardColumn) (t : Str)
    (status : Status) (d : Option Str) (s : Str) :
    ∀ m, m ∈ colsContaining cols s
      → m ∈ colsContaining (addToBoard cols t status d) s := by
  unfold addToBoard
  split
  · exact colsContaining_modify_add_mono cols _ _ s
  · intro m hm
    rw [colsContaining_append]
    exact List.mem_append.2 (Or.inl hm)

theorem modify_add_insert (cols : List BoardColumn) (n : Str) (it : BoardItem)
    (h3 : ∀ c ∈ cols, c.name = n →
      (c.items.any fun i => decide (i.title = it.title)) = false)
    (hex : (cols.any fun c => decide (c.name = n)) = true) :
    titleCount (modifyFirstNamed cols n fun c => addIfMissing c it) it.title
      = titleCount cols it.title + 1
    ∧ n ∈ colsContaining (modifyFirstNamed cols n fun c => addIfMissing c it)
        it.title := by
  induction cols with
  | nil => exact absurd hex (by simp)
  | cons c rest ih =>
    by_cases hn : c.name = n
    · have h1 := h3 c (List.mem_cons_self _ _) hn
      have hitems : (addIfMissing c it).items = c.items ++ [it] := by
        simp [addIfMissing, h1]
      simp only [modifyFirstNamed, if_pos hn]
      constructor
      · rw [titleCount_cons, titleCount_cons, hitems, List.map_append,
          List.countP_append, countP_title_of_any_false h1]
        simp [Nat.add_comm]
      · rw [colsContaining_cons]
        have hany2 : ((addIfMissing c it).items.any
            fun i => decide (i.title = it.title)) = true := by
          rw [hitems]
          simp [List.any_append]
        simp [hany2, addIfMissing_name, hn]
    · have hex' : (rest.any fun c => decide (c.name = n)) = true := by
        rw [List.any_cons] at hex
        simpa [hn] using hex
      obtain ⟨ihc, ihm⟩ :=
        ih (fun c' hc' => h3 c' (List.mem_cons_of_mem c hc')) hex'
      simp only [modifyFirstNamed, if_neg hn]
      constructor
      · rw [titleCount_cons, titleCount_cons, ihc]
        omega
      · rw [colsContaining_cons]
        exact List.mem_append.2 (Or.inr ihm)

theorem modifyFirstNamed_append (cols : List BoardColumn) (c₀ : BoardColumn)
    (n : Str) (f : BoardColumn → BoardColumn)
    (h : ∀ c ∈ cols, ¬(c.name = n)) (hc₀ : c₀.name = n) :
    modifyFirstNamed (cols ++ [c₀]) n f = cols ++ [f c₀] := by
  induction cols with
  | nil => simp [modifyFirstNamed, hc₀]
  | cons c rest ih =>
    have hc := h c (List.mem_cons_self _ _)
    show (if c.name = n then f c :: (rest ++ [c₀])
        else c :: modifyFirstNamed (rest ++ [c₀]) n f) = c :: (rest ++ [f c₀])
    rw [if_neg hc, ih fun c' hc' => h c' (List.mem_cons_of_mem _ hc')]

theorem any_name_of_map (cols : List BoardColumn) (cols' : List BoardColumn)
    (n : Str) (h : cols'.map (·.name) = cols.map (·.name)) :
    (cols'.any fun c => decide (c.name = n))
      = cols.any fun c => decide (c.name = n) := by
  have key : ∀ l : List BoardColumn, (l.any fun c => decide (c.name = n))
      = (l.map (·.name)).any fun m => decide (m = n) := by
    intro l
    induction l with
    | nil => rfl
    | cons c rest ih => simp [List.any_cons, ih]
  rw [key, key, h]

theorem addToBoard_idem (cols : List BoardColumn) (title : Str)
    (status : Status) (due : Option Str) :
    addToBoard (addToBoard cols title status due) title status due
      = addToBoard cols title status due := by
  by_cases hex : (cols.any fun c => decide (c.name = STATUS_TO_COLUMN status))
      = true
  · have hr : addToBoard cols title status due
        = modifyFirstNamed cols (STATUS_TO_COLUMN status)
            fun c => addIfMissing c (newBoardItem title status due) := by
      rw [addToBoard, if_pos hex]
    have hnames : (modifyFirstNamed cols (STATUS_TO_COLUMN status)
          (fun c => addIfMissing c (newBoardItem title status due))).map (·.name)
        = cols.map (·.name) :=
      modifyFirstNamed_names cols _ _ fun c => addIfMissing_name c _
    have hex' : ((addToBoard cols title status due).any
        fun c => decide (c.name = STATUS_TO_COLUMN status)) = true := by
      rw [hr, any_name_of_map cols _ _ hnames]
      exact hex
    rw [addToBoard, if_pos hex', hr, modifyFirstNamed_comp _ _ _ _
      (fun c => addIfMissing_name c _)]
    simp only [addIfMissing_idem]
  · have hr : addToBoard cols title status due
        = cols ++ [⟨STATUS_TO_COLUMN status, [newBoardItem title status due]⟩] := by
      rw [addToBoard, if_neg hex]
    have hex' : ((addToBoard cols title status due).any
        fun c => decide (c.name = STATUS_TO_COLUMN status)) = true := by
      rw [hr]
      simp [List.any_append]
    rw [addToBoard, if_pos hex', hr]
    have hnone : ∀ c ∈ cols, ¬(c.name = STATUS_TO_COLUMN status) := by
      intro c hc hceq
      simp only [Bool.not_eq_true] at hex
      have hthis : (cols.any fun c => decide (c.name = STATUS_TO_COLUMN status))
          = true := List.any_eq_true.2 ⟨c, hc, decide_eq_true hceq⟩
      rw [hex] at hthis
      exact Bool.noConfusion hthis
    rw [modifyFirstNamed_append cols _ _ _ hnone rfl]
    have : addIfMissing ⟨STATUS_TO_COLUMN status, [newBoardItem title status due]⟩
        (newBoardItem title status due)
        = ⟨STATUS_TO_COLUMN status, [newBoardItem title status due]⟩ := by
      simp [addIfMissing]
    rw [this]

theorem filter_name_modifyFirstNamed (cols : List BoardColumn) (n : Str)
    (f : BoardColumn → BoardColumn) (hf : ∀ c, (f c).name = c.name)
    (h1 : (cols.map (·.name)).Nodup) :
    (modifyFirstNamed cols n f).filter (fun c => decide (c.name = n))
      = (cols.filter fun c => decide (c.name = n)).map f := by
  induction cols with
  | nil => rfl
  | cons c rest ih =>
    rw [List.map_cons, List.nodup_cons] at h1
    by_cases hn : c.name = n
    · have hrest : (rest.filter fun c => decide (c.name = n)) = [] := by
        rw [List.filter_eq_nil_iff]
        intro c' hc'
        simp only [decide_eq_true_eq]
        intro hc'n
        exact h1.1 (by rw [← hn] at hc'n; exact hc'n ▸ List.mem_map_of_mem (·.name) hc')
      simp only [modifyFirstNamed, if_pos hn]
      rw [List.filter_cons, List.filter_cons]
      have hfc : (f c).name = n := by rw [hf c, hn]
      simp [hfc, hn, hrest]
    · simp only [modifyFirstNamed, if_neg hn]
      rw [List.filter_cons, List.filter_cons]
      simp [hn, ih h1.2]

theorem filter_name_singleton (cols : List BoardColumn) (n : Str)
    (hnames : (cols.map (·.name)).Nodup)
    (hex : (cols.any fun c => decide (c.name = n)) = true) :
    ∃ c₀, (cols.filter fun c => decide (c.name = n)) = [c₀] ∧ c₀.name = n := by
  induction cols with
  | nil => exact absurd hex (by simp)
  | cons c rest ih =>
    rw [List.map_cons, List.nodup_cons] at hnames
    by_cases hn : c.name = n
    · have hrest : (rest.filter fun c => decide (c.name = n)) = [] := by
        rw [List.filter_eq_nil_iff]
        intro c' hc'
        simp only [decide_eq_true_eq]
        intro hc'n
        exact hnames.1
          (by rw [← hn] at hc'n; exact hc'n ▸ List.mem_map_of_mem (·.name) hc')
      refine ⟨c, ?_, hn⟩
      rw [List.filter_cons]
      simp [hn, hrest]
    · have hex' : (rest.any fun c => decide (c.name = n)) = true := by
        rw [List.any_cons] at hex
        simpa [hn] using hex
      obtain ⟨c₀, hc₀, hc₀n⟩ := ih hnames.2 hex'
      refine ⟨c₀, ?_, hc₀n⟩
      rw [List.filter_cons]
      simp [hn, hc₀]

theorem map_title_rename (items : List BoardItem) (old new : Str) :
    ((items.map fun i =>
        if i.title = old then { i with title := new } else i).map (·.title))
      = (items.map (·.title)).map fun s => if s = old then new else s := by
  induction items with
  | nil => rfl
  | cons i rest ih =>
    by_cases h : i.title = old <;> simp [h, ih]

theorem allTitles_renameOnBoard (cols : List BoardColumn) (old new : Str) :
    allTitles (renameOnBoard cols old new)
      = (allTitles cols).map fun s => if s = old then new else s := by
  induction cols with
  | nil => rfl
  | cons c rest ih =>
    have hcons : renameOnBoard (c :: rest) old new
        = { c with items := c.items.map fun i =>
              if i.title = old then { i with title := new } else i }
          :: renameOnBoard rest old new := rfl
    rw [hcons, allTitles_cons, allTitles_cons, List.map_append, ih,
      map_title_rename]

theorem countP_subst_old (l : List Str) (old new : Str) (h : new ≠ old) :
    ((l.map fun s => if s = old then new else s).countP
      fun x => decide (x = old)) = 0 := by
  rw [countP_eq_zero_iff]
  intro hm
  rw [List.mem_map] at hm
  obtain ⟨s, hs, heq⟩ := hm
  by_cases hso : s = old
  · rw [if_pos hso] at heq
    exact h heq
  · rw [if_neg hso] at heq
    exact hso heq

theorem countP_subst_new (l : List Str) (old new : Str) (h : new ≠ old) :
    ((l.map fun s => if s = old then new else s).countP
      fun x => decide (x = new))
      = (l.countP fun x => decide (x = new))
        + l.countP fun x => decide (x = old) := by
  induction l with
  | nil => rfl
  | cons s rest ih =>
    simp only [List.map_cons, List.countP_cons, ih]
    by_cases hso : s = old
    · subst hso
      simp [h, Ne.symm h]
      omega
    · by_cases hsn : s = new
      · subst hsn
        simp [hso]
        omega
      · simp [hso, hsn]

/-- **C5** counterexample.  The claim reads `renameOnBoard` as retitling
one item while "all other columns and items are unchanged"; on a board
holding two items titled `A`, the source renames them both (the loop has
no early exit), so no item titled `A` survives and two items titled `B`
appear. -/
theorem claim_C5_counterexample :
    renameOnBoard
        [⟨"Backlog".toList,
          [⟨"A".toList, false, none⟩, ⟨"A".toList, true, none⟩]⟩]
        "A".toList "B".toList
      = [⟨"Backlog".toList,
          [⟨"B".toList, false, none⟩, ⟨"B".toList, true, none⟩]⟩]
    ∧ titleCount
        (renameOnBoard
          [⟨"Backlog".toList,
            [⟨"A".toList, false, none⟩, ⟨"A".toList, true, none⟩]⟩]
          "A".toList "B".toList) "A".toList = 0 := by
  decide

/-- **C5** (amended).  `renameOnBoard` retitles, in place, every item
whose title is the old title: column names, column count, per-column item
counts and every item position are preserved, each item either keeps its
fields or only has its title replaced, and when the old title occurs
exactly once and differs from the new title, the old title disappears and
exactly one item with the new title is added. -/
theorem claim_C5_rename_in_place (cols : List BoardColumn) (old new : Str)
    (h1 : titleCount cols old = 1) (h2 : new ≠ old) :
    ((renameOnBoard cols old new).map (·.name) = cols.map (·.name))
    ∧ (∀ i : Nat, ((renameOnBoard cols old new)[i]?).map (·.items.length)
        = (cols[i]?).map (·.items.length))
    ∧ (∀ i j : Nat, ((renameOnBoard cols old new)[i]?.bind fun c => c.items[j]?)
        = (cols[i]?.bind fun c => c.items[j]?).map
            fun it => if it.title = old then ⟨new, it.completed, it.date⟩ else it)
    ∧ titleCount (renameOnBoard cols old new) old = 0
    ∧ titleCount (renameOnBoard cols old new) new
        = titleCount cols new + 1 := by
  refine ⟨?_, ?_, ?_, ?_, ?_⟩
  · simp [renameOnBoard]
  · intro i
    simp only [renameOnBoard, List.getElem?_map]
    cases cols[i]? <;> simp
  · intro i j
    simp only [renameOnBoard, List.getElem?_map]
    cases hc : cols[i]? with
    | none => rfl
    | some c =>
      simp only [Option.map_some', Option.some_bind, List.getElem?_map]
  · rw [titleCount, allTitles_renameOnBoard]
    exact countP_subst_old _ _ _ h2
  · rw [titleCount, allTitles_renameOnBoard, countP_subst_new _ _ _ h2]
    rw [titleCount] at h1
    rw [h1]
    rfl

/-- **C5** witness: the amended rename theorem applied to a concrete
two-column board holding one `A` item. -/
theorem claim_C5_witness :
    titleCount
        (renameOnBoard
          [⟨"Backlog".toList, [⟨"A".toList, false, none⟩]⟩,
           ⟨"Done".toList, [⟨"C".toList, true, none⟩]⟩]
          "A".toList "B".toList) "A".toList = 0
    ∧ titleCount
        (renameOnBoard
          [⟨"Backlog".toList, [⟨"A".toList, false, none⟩]⟩,
           ⟨"Done".toList, [⟨"C".toList, true, none⟩]⟩]
          "A".toList "B".toList) "B".toList
      = titleCount
          [⟨"Backlog".toList, [⟨"A".toList, false, none⟩]⟩,
           ⟨"Done".toList, [⟨"C".toList, true, none⟩]⟩] "B".toList + 1 :=
  ⟨(claim_C5_rename_in_place
      [⟨"Backlog".toList, [⟨"A".toList, false, none⟩]⟩,
       ⟨"Done".toList, [⟨"C".toList, true, none⟩]⟩]
      "A".toList "B".toList (by decide) (by decide)).2.2.2.1,
   (claim_C5_rename_in_place
      [⟨"Backlog".toList, [⟨"A".toList, false, none⟩]⟩,
       ⟨"Done".toList, [⟨"C".toList, true, none⟩]⟩]
      "A".toList "B".toList (by decide) (by decide)).2.2.2.2⟩

/-- **C4** counterexample.  The claim says `removeFromBoard` deletes only
the first item with the title and leaves the others; on a board holding
`A` in two columns the source filters `A` out of every column, so no
occurrence remains. -/
theorem claim_C4_counterexample :
    removeFromBoard
        [⟨"Backlog".toList, [⟨"A".toList, false, none⟩]⟩,
         ⟨"Working".toList, [⟨"A".toList, false, none⟩]⟩] "A".toList
      = [⟨"Backlog".toList, []⟩, ⟨"Working".toList, []⟩]
    ∧ titleCount
        (removeFromBoard
          [⟨"Backlog".toList, [⟨"A".toList, false, none⟩]⟩,
           ⟨"Working".toList, [⟨"A".toList, false, none⟩]⟩] "A".toList)
        "A".toList = 0 := by
  decide

/-- **C4** (amended).  `removeFromBoard` deletes every item with the
given title from every column; column names and order are preserved, each
column keeps its remaining items in order, and items with any other title
are untouched. -/
theorem claim_C4_remove_removes_all (cols : List BoardColumn) (t : Str) :
    titleCount (removeFromBoard cols t) t = 0
    ∧ (removeFromBoard cols t).map (·.name) = cols.map (·.name)
    ∧ (∀ i : Nat, ((removeFromBoard cols t)[i]?).map (·.items)
        = (cols[i]?).map fun c => c.items.filter fun x => decide (x.title ≠ t))
    ∧ ∀ s, s ≠ t →
        titleCount (removeFromBoard cols t) s = titleCount cols s
        ∧ colsContaining (removeFromBoard cols t) s = colsContaining cols s := by
  refine ⟨titleCount_removeFromBoard_self cols t,
    names_removeFromBoard cols t, ?_, ?_⟩
  · intro i
    simp only [removeFromBoard, List.getElem?_map]
    cases cols[i]? <;> simp
  · intro s hs
    exact ⟨titleCount_removeFromBoard_ne cols t s hs,
      colsContaining_removeFromBoard_ne cols t s hs⟩

/-- **C4** witness: the amended removal theorem applied to a concrete
board holding one `A` item and one `B` item. -/
theorem claim_C4_witness :
    titleCount
        (removeFromBoard
          [⟨"Next".toList,
            [⟨"A".toList, false, none⟩, ⟨"B".toList, false, none⟩]⟩]
          "A".toList) "A".toList = 0
    ∧ titleCount
        (removeFromBoard
          [⟨"Next".toList,
            [⟨"A".toList, false, none⟩, ⟨"B".toList, false, none⟩]⟩]
          "A".toList) "B".toList
      = titleCount
          [⟨"Next".toList,
            [⟨"A".toList, false, none⟩, ⟨"B".toList, false, none⟩]⟩]
          "B".toList :=
  ⟨(claim_C4_remove_removes_all
      [⟨"Next".toList, [⟨"A".toList, false, none⟩, ⟨"B".toList, false, none⟩]⟩]
      "A".toList).1,
   ((claim_C4_remove_removes_all
      [⟨"Next".toList, [⟨"A".toList, false, none⟩, ⟨"B".toList, false, none⟩]⟩]
      "A".toList).2.2.2 "B".toList (by decide)).1⟩

/-- **C3** counterexample.  The claim quantifies over every board; on a
board whose `Backlog` column already holds two items titled `A`, two
idempotent adds leave both duplicates, so the target column holds two
items with the title, not exactly one. -/
theorem claim_C3_counterexample :
    titleCount
        ((addToBoard (addToBoard
              [⟨"Backlog".toList,
                [⟨"A".toList, false, none⟩, ⟨"A".toList, false, none⟩]⟩]
              "A".toList .backlog none)
            "A".toList .backlog none).filter
          fun c => decide (c.name = STATUS_TO_COLUMN .backlog))
        "A".toList = 2 := by
  decide

/-- **C3** (amended).  The second identical add is always a no-op
(`addToBoard` is idempotent), and when the board's column names are
distinct and the column the status maps to initially holds at most one
item with the title, two identical adds leave exactly one item with that
title in that column. -/
theorem claim_C3_idempotent_add (cols : List BoardColumn) (title : Str)
    (status : Status) (due : Option Str)
    (hnames : (cols.map (·.name)).Nodup)
    (hpre : titleCount
        (cols.filter fun c => decide (c.name = STATUS_TO_COLUMN status))
        title ≤ 1) :
    addToBoard (addToBoard cols title status due) title status due
      = addToBoard cols title status due
    ∧ titleCount
        ((addToBoard (addToBoard cols title status due) title status due).filter
          fun c => decide (c.name = STATUS_TO_COLUMN status)) title = 1 := by
  have hidem := addToBoard_idem cols title status due
  refine ⟨hidem, ?_⟩
  rw [hidem]
  by_cases hex : (cols.any fun c => decide (c.name = STATUS_TO_COLUMN status))
      = true
  · rw [addToBoard, if_pos hex,
      filter_name_modifyFirstNamed cols _ _ (fun c => addIfMissing_name c _)
        hnames]
    obtain ⟨c₀, hc₀, hc₀n⟩ := filter_name_singleton cols _ hnames hex
    rw [hc₀] at hpre ⊢
    by_cases ha : (c₀.items.any fun i => decide (i.title = title)) = true
    · have hf : addIfMissing c₀ (newBoardItem title status due) = c₀ := by
        simp only [addIfMissing, newBoardItem]
        rw [if_pos ha]
      show titleCount [addIfMissing c₀ (newBoardItem title status due)] title = 1
      rw [hf]
      have hpos : 0 < titleCount [c₀] title := by
        obtain ⟨i, hi, hdec⟩ := List.any_eq_true.1 ha
        rw [titleCount_cons]
        have : 0 < (c₀.items.map (·.title)).countP fun x => decide (x = title) :=
          List.countP_pos_iff.2 ⟨i.title, List.mem_map_of_mem _ hi, hdec⟩
        omega
      omega
    · simp only [Bool.not_eq_true] at ha
      have hf : (addIfMissing c₀ (newBoardItem title status due)).items
          = c₀.items ++ [newBoardItem title status due] := by
        simp [addIfMissing, newBoardItem, ha]
      show titleCount [addIfMissing c₀ (newBoardItem title status due)] title = 1
      rw [titleCount_cons, hf, List.map_append, List.countP_append,
        countP_title_of_any_false ha]
      simp [titleCount, allTitles, newBoardItem]
  · rw [addToBoard, if_neg hex]
    have hnone : (cols.filter fun c => decide (c.name = STATUS_TO_COLUMN status))
        = [] := by
      rw [List.filter_eq_nil_iff]
      intro c hc
      simp only [Bool.not_eq_true] at hex ⊢
      cases hd : decide (c.name = STATUS_TO_COLUMN status)
      · rfl
      · exfalso
        have : (cols.any fun c => decide (c.name = STATUS_TO_COLUMN status))
            = true := List.any_eq_true.2 ⟨c, hc, hd⟩
        rw [hex] at this
        exact Bool.noConfusion this
    rw [List.filter_append, hnone]
    simp [titleCount, allTitles, newBoardItem]

/-- **C3** witness: the amended idempotent-add theorem applied to the
empty board. -/
theorem claim_C3_witness :
    addToBoard (addToBoard [] "A".toList .backlog none) "A".toList .backlog none
      = addToBoard [] "A".toList .backlog none
    ∧ titleCount
        ((addToBoard (addToBoard [] "A".toList .backlog none)
            "A".toList .backlog none).filter
          fun c => decide (c.name = STATUS_TO_COLUMN .backlog)) "A".toList = 1 :=
  claim_C3_idempotent_add [] "A".toList .backlog none (by decide) (by decide)

/-- **C9**.  The duplicate guard of `addToBoard` inspects only the target
column: when the title is held by a column with a different name and no
column named like the target holds it, the add inserts a second item, and
the title then occurs both in its old column and in the target column. -/
theorem claim_C9_cross_column_add (cols : List BoardColumn) (title : Str)
    (status : Status) (due : Option Str) (cname : Str)
    (_h1 : cname ≠ STATUS_TO_COLUMN status)
    (h2 : cname ∈ colsContaining cols title)
    (h3 : ∀ c ∈ cols, c.name = STATUS_TO_COLUMN status →
      (c.items.any fun i => decide (i.title = title)) = false) :
    titleCount (addToBoard cols title status due) title
      = titleCount cols title + 1
    ∧ cname ∈ colsContaining (addToBoard cols title status due) title
    ∧ STATUS_TO_COLUMN status ∈ colsContaining (addToBoard cols title status due)
        title := by
  refine ⟨?_, colsContaining_addToBoard_mono cols title status due title cname h2,
    ?_⟩
  · by_cases hex : (cols.any fun c => decide (c.name = STATUS_TO_COLUMN status))
        = true
    · rw [addToBoard, if_pos hex]
      exact (modify_add_insert cols _ (newBoardItem title status due) h3 hex).1
    · rw [addToBoard, if_neg hex, titleCount_append]
      simp [titleCount, allTitles, newBoardItem]
  · by_cases hex : (cols.any fun c => decide (c.name = STATUS_TO_COLUMN status))
        = true
    · rw [addToBoard, if_pos hex]
      exact (modify_add_insert cols _ (newBoardItem title status due) h3 hex).2
    · rw [addToBoard, if_neg hex, colsContaining_append]
      refine List.mem_append.2 (Or.inr ?_)
      simp [colsContaining, newBoardItem]

/-- **C9** witness: adding `A` with status backlog to a board where `A`
sits only in the `Working` column duplicates it across two columns. -/
theorem claim_C9_witness :
    titleCount
        (addToBoard [⟨"Working".toList, [⟨"A".toList, false, none⟩]⟩]
          "A".toList .backlog none) "A".toList
      = titleCount [⟨"Working".toList, [⟨"A".toList, false, none⟩]⟩]
          "A".toList + 1
    ∧ "Working".toList ∈ colsContaining
        (addToBoard [⟨"Working".toList, [⟨"A".toList, false, none⟩]⟩]
          "A".toList .backlog none) "A".toList
    ∧ STATUS_TO_COLUMN .backlog ∈ colsContaining
        (addToBoard [⟨"Working".toList, [⟨"A".toList, false, none⟩]⟩]
          "A".toList .backlog none) "A".toList :=
  claim_C9_cross_column_add
    [⟨"Working".toList, [⟨"A".toList, false, none⟩]⟩]
    "A".toList .backlog none "Working".toList
    (by decide) (by decide) (by decide)

/-- **C6**.  Updating a task to status `done` sets `completed_at` to the
current time exactly when it is not already set, and keeps any value
already present; after a later update to `working` and a further update
back to `done`, `completed_at` still holds the value the first completion
gave it. -/
theorem claim_C6_completed_at_set_once :
    (∀ (fm : TaskFrontmatter) (body : Str) (p : UpdateParams) (now : Str),
      p.status = some .done →
        (fm.completed_at = none →
          ((updateTaskFields fm body p now).1).completed_at = some now)
        ∧ ∀ c, fm.completed_at = some c →
            ((updateTaskFields fm body p now).1).completed_at = some c)
    ∧ ∀ (fm : TaskFrontmatter) (body : Str) (p₁ p₂ p₃ : UpdateParams)
        (t₁ t₂ t₃ : Str),
        p₁.status = some .done → p₂.status = some .working →
        p₃.status = some .done →
        (updateTaskFields
            (updateTaskFields
              (updateTaskFields fm body p₁ t₁).1
              (updateTaskFields fm body p₁ t₁).2 p₂ t₂).1
            (updateTaskFields
              (updateTaskFields fm body p₁ t₁).1
              (updateTaskFields fm body p₁ t₁).2 p₂ t₂).2
            p₃ t₃).1.completed_at
          = (updateTaskFields fm body p₁ t₁).1.completed_at := by
  constructor
  · intro fm body p now hp
    constructor
    · intro hc
      simp [updateTaskFields, hp, hc]
    · intro c hc
      simp [updateTaskFields, hp, hc]
  · intro fm body p₁ p₂ p₃ t₁ t₂ t₃ hp₁ hp₂ hp₃
    have h₁ : (updateTaskFields fm body p₁ t₁).1.completed_at
        = some (fm.completed_at.getD t₁) := by
      cases hc : fm.completed_at <;> simp [updateTaskFields, hp₁, hc]
    have h₂ : (updateTaskFields
          (updateTaskFields fm body p₁ t₁).1
          (updateTaskFields fm body p₁ t₁).2 p₂ t₂).1.completed_at
        = (updateTaskFields fm body p₁ t₁).1.completed_at := by
      simp [updateTaskFields, hp₂]
    rw [updateTaskFields, h₂, h₁]
    simp

/-- **C6** witness: a concrete done → working → done cycle keeps the
first completion timestamp. -/
theorem claim_C6_witness :
    (updateTaskFields
        (updateTaskFields
          (updateTaskFields
            ⟨.working, .me, .medium, none, none, none, none, "t0".toList, none, []⟩
            [] { status := some .done } "t1".toList).1
          (updateTaskFields
            ⟨.working, .me, .medium, none, none, none, none, "t0".toList, none, []⟩
            [] { status := some .done } "t1".toList).2
          { status := some .working } "t2".toList).1
        (updateTaskFields
          (updateTaskFields
            ⟨.working, .me, .medium, none, none, none, none, "t0".toList, none, []⟩
            [] { status := some .done } "t1".toList).1
          (updateTaskFields
            ⟨.working, .me, .medium, none, none, none, none, "t0".toList, none, []⟩
            [] { status := some .done } "t1".toList).2
          { status := some .working } "t2".toList).2
        { status := some .done } "t3".toList).1.completed_at
      = (updateTaskFields
          ⟨.working, .me, .medium, none, none, none, none, "t0".toList, none, []⟩
          [] { status := some .done } "t1".toList).1.completed_at :=
  claim_C6_completed_at_set_once.2
    ⟨.working, .me, .medium, none, none, none, none, "t0".toList, none, []⟩
    [] { status := some .done } { status := some .working }
    { status := some .done } "t1".toList "t2".toList "t3".toList
    rfl rfl rfl

/-- **C7**.  A message is overdue exactly when the floor of its elapsed
days strictly exceeds its type's threshold; a needs-reply message dated
exactly one day ago is not overdue, two days ago it is; an awaiting-reply
message dated three days ago is not overdue, four days ago it is. -/
theorem claim_C7_overdue_thresholds :
    (∀ (nowMs dateMs : Int) (ty : FollowUpType),
      isOverdue ty nowMs dateMs = true
        ↔ daysAgo nowMs dateMs > OVERDUE_THRESHOLDS ty)
    ∧ ∀ nowMs : Int,
        daysAgo nowMs (nowMs - 1 * msPerDay) = 1
        ∧ daysAgo nowMs (nowMs - 2 * msPerDay) = 2
        ∧ isOverdue .needs_reply nowMs (nowMs - 1 * msPerDay) = false
        ∧ isOverdue .needs_reply nowMs (nowMs - 2 * msPerDay) = true
        ∧ isOverdue .awaiting_reply nowMs (nowMs - 3 * msPerDay) = false
        ∧ isOverdue .awaiting_reply nowMs (nowMs - 4 * msPerDay) = true := by
  have hdays : ∀ (nowMs : Int) (k : Int),
      daysAgo nowMs (nowMs - k * msPerDay) = k := by
    intro nowMs k
    have h1 : nowMs - (nowMs - k * msPerDay) = k * msPerDay := by ring
    rw [daysAgo, h1, Int.mul_fdiv_cancel]
    rw [msPerDay]
    norm_num
  refine ⟨?_, ?_⟩
  · intro nowMs dateMs ty
    simp [isOverdue]
  · intro nowMs
    refine ⟨hdays nowMs 1, hdays nowMs 2, ?_, ?_, ?_, ?_⟩
    · rw [isOverdue, hdays nowMs 1]
      decide
    · rw [isOverdue, hdays nowMs 2]
      decide
    · rw [isOverdue, hdays nowMs 3]
      decide
    · rw [isOverdue, hdays nowMs 4]
      decide

/-- **C8**.  When the sanitized title already names a task file,
`createTask` returns the `alreadyExists` payload as an ordinary value and
leaves the task files and the board unchanged; otherwise it succeeds,
stores a task whose `created_at` is the current time with every omitted
field defaulted (backlog / me / medium, no completion), keeps the
existing files, and adds the new item to the board. -/
theorem claim_C8_create_task (st : VaultState) (p : CreateParams) (now : Str) :
    ((st.tasks.any fun t => decide (t.1 = sanitizeFilename p.title)) = true →
      createTask st p now = (st, .alreadyExists (sanitizeFilename p.title)))
    ∧ ((st.tasks.any fun t => decide (t.1 = sanitizeFilename p.title)) = false →
      ∃ fm : TaskFrontmatter,
        createTask st p now =
          ({ tasks := st.tasks
              ++ [(sanitizeFilename p.title, ⟨fm, p.description.getD []⟩)],
             board := addToBoard st.board (sanitizeFilename p.title) fm.status
               p.dueDate },
           .created (sanitizeFilename p.title) fm)
        ∧ fm.created_at = now
        ∧ fm.status = p.status.getD .backlog
        ∧ fm.assignee = p.assignee.getD .me
        ∧ fm.priority = p.priority.getD .medium
        ∧ fm.completed_at = none
        ∧ fm.tags = []) := by
  constructor
  · intro h
    rw [createTask]
    simp [h]
  · intro h
    have hcond : ¬((st.tasks.any
        fun t => decide (t.1 = sanitizeFilename p.title)) = true) := by
      simp [h]
    refine ⟨⟨p.status.getD .backlog, p.assignee.getD .me, p.priority.getD .medium,
      p.project, p.dueDate, p.blockedBy, p.followUpDate, now, none, []⟩,
      ?_, rfl, rfl, rfl, rfl, rfl, rfl⟩
    rw [createTask, if_neg hcond]

/-- **C8** witness: creating `A` on a one-task vault that already holds
the sanitized name `A` is rejected with the structured error payload and
leaves the state unchanged. -/
theorem claim_C8_witness :
    createTask
        ⟨[(("A".toList : Str),
          (⟨⟨.backlog, .me, .medium, none, none, none, none, "t".toList, none, []⟩,
            []⟩ : TaskFileRec))], []⟩
        ⟨"A".toList, none, none, none, none, none, none, none, none⟩
        "t1".toList
      = (⟨[(("A".toList : Str),
          (⟨⟨.backlog, .me, .medium, none, none, none, none, "t".toList, none, []⟩,
            []⟩ : TaskFileRec))], []⟩,
         .alreadyExists (sanitizeFilename "A".toList)) :=
  (claim_C8_create_task
    ⟨[(("A".toList : Str),
      (⟨⟨.backlog, .me, .medium, none, none, none, none, "t".toList, none, []⟩,
        []⟩ : TaskFileRec))], []⟩
    ⟨"A".toList, none, none, none, none, none, none, none, none⟩
    "t1".toList).1 (by decide)

/-- **C10**.  Parsing a task file is total on existing files: every
omitted frontmatter field is defaulted (backlog / me / medium, empty
tags, `created_at` defaulting to now), the body is trimmed, and the parse
returns no result exactly when the file does not exist. -/
theorem claim_C10_parse_task_defaults :
    (∀ filename now : Str, parseTaskFile none filename now = none)
    ∧ ∀ (r : RawTaskFile) (filename now : Str),
        ∃ pt, parseTaskFile (some r) filename now = some pt
          ∧ pt.frontmatter.status = r.status.getD .backlog
          ∧ pt.frontmatter.assignee = r.assignee.getD .me
          ∧ pt.frontmatter.priority = r.priority.getD .medium
          ∧ pt.frontmatter.tags = r.tags.getD []
          ∧ (r.created_at = none → pt.frontmatter.created_at = now)
          ∧ pt.filename = filename
          ∧ pt.title = filename
          ∧ pt.body = trimChars r.content := by
  constructor
  · intro filename now
    rfl
  · intro r filename now
    refine ⟨_, rfl, rfl, rfl, rfl, rfl, ?_, rfl, rfl, rfl⟩
    intro h
    simp [createdAtOr, h]

/-- **C10** witness: a raw file with every frontmatter field missing
parses with all defaults, and the missing file parses to nothing. -/
theorem claim_C10_witness :
    parseTaskFile none "A".toList "t0".toList = none
    ∧ ∃ pt, parseTaskFile
          (some ⟨none, none, none, none, none, none, none, none, none, none,
            "  body  ".toList⟩) "A".toList "t0".toList = some pt
        ∧ pt.frontmatter.status = Status.backlog
        ∧ pt.frontmatter.assignee = Assignee.me
        ∧ pt.frontmatter.priority = Priority.medium
        ∧ pt.frontmatter.tags = []
        ∧ pt.frontmatter.created_at = "t0".toList
        ∧ pt.body = trimChars "  body  ".toList := by
  refine ⟨claim_C10_parse_task_defaults.1 "A".toList "t0".toList, ?_⟩
  obtain ⟨pt, h1, h2, h3, h4, h5, h6, h7, h8, h9⟩ :=
    claim_C10_parse_task_defaults.2
      ⟨none, none, none, none, none, none, none, none, none, none,
        "  body  ".toList⟩ "A".toList "t0".toList
  exact ⟨pt, h1, h2, h3, h4, h5, h6 rfl, h9⟩

/-! ## Round-trip lemmas for the board codec -/

theorem splitLines_ne_nil (t : Str) : splitLines t ≠ [] := by
  cases t with
  | nil => simp [splitLines]
  | cons c rest =>
    rw [splitLines]
    cases h : splitLines rest with
    | nil => simp
    | cons l ls =>
      by_cases hc : c = '\n' <;> simp [hc]

theorem splitLines_no_newline (t : Str) : ∀ l ∈ splitLines t, '\n' ∉ l := by
  induction t with
  | nil =>
    intro l hl
    rw [splitLines] at hl
    rcases List.mem_cons.1 hl with h | h
    · subst h
      simp
    · simp at h
  | cons c rest ih =>
    intro l hl
    rw [splitLines] at hl
    cases hsp : splitLines rest with
    | nil => exact absurd hsp (splitLines_ne_nil rest)
    | cons l₀ ls =>
      simp only [hsp] at hl
      by_cases hc : c = '\n'
      · rw [if_pos hc] at hl
        rcases List.mem_cons.1 hl with h | h
        · subst h
          simp
        · exact ih l (hsp ▸ h)
      · rw [if_neg hc] at hl
        rcases List.mem_cons.1 hl with h | h
        · subst h
          intro hmem
          rcases List.mem_cons.1 hmem with h1 | h1
          · exact hc h1.symm
          · exact ih l₀ (hsp ▸ List.mem_cons_self _ _) h1
        · exact ih l (hsp ▸ List.mem_cons_of_mem _ h)

theorem splitLines_of_no_newline (l : Str) (hl : '\n' ∉ l) :
    splitLines l = [l] := by
  induction l with
  | nil => rfl
  | cons c l ih =>
    have hc : c ≠ '\n' := fun hh => hl (hh ▸ List.mem_cons_self _ _)
    have hl' : '\n' ∉ l := fun hh => hl (List.mem_cons_of_mem _ hh)
    rw [splitLines, ih hl']
    simp [hc]

theorem splitLines_append (l : Str) (t : Str) (hl : '\n' ∉ l) :
    splitLines (l ++ '\n' :: t) = l :: splitLines t := by
  induction l with
  | nil =>
    rw [List.nil_append, splitLines]
    cases h : splitLines t with
    | nil => exact absurd h (splitLines_ne_nil t)
    | cons l₀ ls => simp
  | cons c l ih =>
    have hc : c ≠ '\n' := fun hh => hl (hh ▸ List.mem_cons_self _ _)
    have hl' : '\n' ∉ l := fun hh => hl (List.mem_cons_of_mem _ hh)
    rw [List.cons_append, splitLines, ih hl']
    simp [hc]

theorem splitLines_joinLines (ls : List Str) (hne : ls ≠ [])
    (hnl : ∀ l ∈ ls, '\n' ∉ l) : splitLines (joinLines ls) = ls := by
  induction ls with
  | nil => exact absurd rfl hne
  | cons l rest ih =>
    cases rest with
    | nil =>
      rw [joinLines]
      exact splitLines_of_no_newline l (hnl l (List.mem_cons_self _ _))
    | cons l' rest' =>
      rw [joinLines, splitLines_append l _ (hnl l (List.mem_cons_self _ _)),
        ih (by simp) fun x hx => hnl x (List.mem_cons_of_mem _ hx)]

theorem splitDBr_some_shape (cs : Str) (d r : Str)
    (h : splitDBr cs = some (d, r)) :
    ∃ c₂ cs₂, cs = c₂ :: cs₂
      ∧ (d = [] → c₂ = ']' ∧ cs₂.head? = some ']')
      ∧ ∀ d₁ d', d = d₁ :: d' → d₁ = c₂ := by
  cases cs with
  | nil => exact absurd h (by simp [splitDBr])
  | cons c₂ cs₂ =>
    refine ⟨c₂, cs₂, rfl, ?_, ?_⟩
    · intro hd
      by_cases hc : c₂ = ']' ∧ cs₂.head? = some ']'
      · exact hc
      · rw [splitDBr, if_neg hc] at h
        cases hcs : splitDBr cs₂ with
        | none =>
          rw [hcs] at h
          exact absurd h (by simp)
        | some p =>
          rw [hcs] at h
          simp only [Option.map_some'] at h
          have := congrArg Prod.fst (Option.some.inj h)
          rw [hd] at this
          exact absurd this (by simp)
    · intro d₁ d' hd
      by_cases hc : c₂ = ']' ∧ cs₂.head? = some ']'
      · rw [splitDBr, if_pos hc] at h
        have := congrArg Prod.fst (Option.some.inj h)
        rw [hd] at this
        exact absurd this (by simp)
      · rw [splitDBr, if_neg hc] at h
        cases hcs : splitDBr cs₂ with
        | none =>
          rw [hcs] at h
          exact absurd h (by simp)
        | some p =>
          rw [hcs] at h
          simp only [Option.map_some'] at h
          have := congrArg Prod.fst (Option.some.inj h)
          rw [hd] at this
          exact (List.cons.inj this.symm).1

theorem splitDBr_reparse (cs : Str) :
    ∀ d r, splitDBr cs = some (d, r)
      → ∀ t, splitDBr (d ++ ']' :: ']' :: t) = some (d, t) := by
  induction cs with
  | nil =>
    intro d r h
    exact absurd h (by simp [splitDBr])
  | cons c cs ih =>
    intro d r h t
    by_cases hc : c = ']' ∧ cs.head? = some ']'
    · rw [splitDBr, if_pos hc] at h
      obtain ⟨hd, hr⟩ := Prod.mk.injEq .. ▸ Option.some.inj h
      subst hd
      rw [List.nil_append, splitDBr, if_pos (by simp)]
      rfl
    · rw [splitDBr, if_neg hc] at h
      cases hcs : splitDBr cs with
      | none =>
        rw [hcs] at h
        exact absurd h (by simp)
      | some p =>
        rw [hcs] at h
        simp only [Option.map_some'] at h
        obtain ⟨hd, hr⟩ := Prod.mk.injEq .. ▸ Option.some.inj h
        obtain ⟨c₂, cs₂, hcs₂, hnil, hcons⟩ :=
          splitDBr_some_shape cs p.1 p.2 (by rw [hcs])
      -- show the first-position guard cannot fire
        have hguard : ¬(c = ']' ∧ (p.1 ++ ']' :: ']' :: t).head? = some ']') := by
          rintro ⟨hc1, hh⟩
          apply hc
          refine ⟨hc1, ?_⟩
          cases hp : p.1 with
          | nil =>
            obtain ⟨he1, _⟩ := hnil hp
            rw [hcs₂]
            simp [he1]
          | cons d₁ d' =>
            rw [hp] at hh
            simp only [List.cons_append, List.head?_cons] at hh
            have := hcons d₁ d' hp
            rw [hcs₂]
            simp only [List.head?_cons]
            rw [← this]
            exact hh
        subst hd
        rw [List.cons_append, splitDBr, if_neg hguard,
          ih p.1 p.2 (by rw [hcs]) t]
        rfl

theorem titleSplit_reparse (cs : Str) (d r : Str)
    (h : titleSplit cs = some (d, r)) : TitleOk d := by
  cases cs with
  | nil => exact absurd h (by simp [titleSplit])
  | cons c cs =>
    rw [titleSplit] at h
    cases hcs : splitDBr cs with
    | none =>
      rw [hcs] at h
      exact absurd h (by simp)
    | some p =>
      rw [hcs] at h
      simp only [Option.map_some'] at h
      obtain ⟨hd, hr⟩ := Prod.mk.injEq .. ▸ Option.some.inj h
      subst hd
      intro t
      rw [List.cons_append, titleSplit,
        splitDBr_reparse cs p.1 p.2 (by rw [hcs]) t]
      rfl

theorem braceSplit_reparse (cs : Str) :
    ∀ d r, braceSplit cs = some (d, r)
      → ∀ t, braceSplit (d ++ '}' :: t) = some (d, t) := by
  induction cs with
  | nil =>
    intro d r h
    exact absurd h (by simp [braceSplit])
  | cons c cs ih =>
    intro d r h t
    by_cases hc : c = '}'
    · rw [braceSplit, if_pos hc] at h
      obtain ⟨hd, hr⟩ := Prod.mk.injEq .. ▸ Option.some.inj h
      subst hd
      rw [List.nil_append, braceSplit, if_pos rfl]
    · rw [braceSplit, if_neg hc] at h
      cases hcs : braceSplit cs with
      | none =>
        rw [hcs] at h
        exact absurd h (by simp)
      | some p =>
        rw [hcs] at h
        simp only [Option.map_some'] at h
        obtain ⟨hd, hr⟩ := Prod.mk.injEq .. ▸ Option.some.inj h
        subst hd
        rw [List.cons_append, braceSplit, if_neg hc,
          ih p.1 p.2 (by rw [hcs]) t]
        rfl

theorem braceSplit1_reparse (cs : Str) (d r : Str)
    (h : braceSplit1 cs = some (d, r)) : DateOk d := by
  cases cs with
  | nil => exact absurd h (by simp [braceSplit1])
  | cons c cs =>
    rw [braceSplit1] at h
    cases hcs : braceSplit cs with
    | none =>
      rw [hcs] at h
      exact absurd h (by simp)
    | some p =>
      rw [hcs] at h
      simp only [Option.map_some'] at h
      obtain ⟨hd, hr⟩ := Prod.mk.injEq .. ▸ Option.some.inj h
      subst hd
      intro t
      rw [List.cons_append, braceSplit1,
        braceSplit_reparse cs p.1 p.2 (by rw [hcs]) t]
      rfl

theorem splitDBr_subset (cs : Str) :
    ∀ d r, splitDBr cs = some (d, r) → ∀ x ∈ d, x ∈ cs := by
  induction cs with
  | nil =>
    intro d r h
    exact absurd h (by simp [splitDBr])
  | cons c cs ih =>
    intro d r h x hx
    by_cases hc : c = ']' ∧ cs.head? = some ']'
    · rw [splitDBr, if_pos hc] at h
      obtain ⟨hd, _⟩ := Prod.mk.injEq .. ▸ Option.some.inj h
      subst hd
      simp at hx
    · rw [splitDBr, if_neg hc] at h
      cases hcs : splitDBr cs with
      | none =>
        rw [hcs] at h
        exact absurd h (by simp)
      | some p =>
        rw [hcs] at h
        simp only [Option.map_some'] at h
        obtain ⟨hd, _⟩ := Prod.mk.injEq .. ▸ Option.some.inj h
        subst hd
        rcases List.mem_cons.1 hx with h1 | h1
        · exact h1 ▸ List.mem_cons_self _ _
        · exact List.mem_cons_of_mem _ (ih p.1 p.2 (by rw [hcs]) x h1)

theorem titleSplit_subset (cs : Str) (d r : Str)
    (h : titleSplit cs = some (d, r)) : ∀ x ∈ d, x ∈ cs := by
  cases cs with
  | nil => exact absurd h (by simp [titleSplit])
  | cons c cs =>
    rw [titleSplit] at h
    cases hcs : splitDBr cs with
    | none =>
      rw [hcs] at h
      exact absurd h (by simp)
    | some p =>
      rw [hcs] at h
      simp only [Option.map_some'] at h
      obtain ⟨hd, _⟩ := Prod.mk.injEq .. ▸ Option.some.inj h
      subst hd
      intro x hx
      rcases List.mem_cons.1 hx with h1 | h1
      · exact h1 ▸ List.mem_cons_self _ _
      · exact List.mem_cons_of_mem _ (splitDBr_subset cs p.1 p.2 (by rw [hcs]) x h1)

theorem braceSplit_subset (cs : Str) :
    ∀ d r, braceSplit cs = some (d, r) → ∀ x ∈ d, x ∈ cs := by
  induction cs with
  | nil =>
    intro d r h
    exact absurd h (by simp [braceSplit])
  | cons c cs ih =>
    intro d r h x hx
    by_cases hc : c = '}'
    · rw [braceSplit, if_pos hc] at h
      obtain ⟨hd, _⟩ := Prod.mk.injEq .. ▸ Option.some.inj h
      subst hd
      simp at hx
    · rw [braceSplit, if_neg hc] at h
      cases hcs : braceSplit cs with
      | none =>
        rw [hcs] at h
        exact absurd h (by simp)
      | some p =>
        rw [hcs] at h
        simp only [Option.map_some'] at h
        obtain ⟨hd, _⟩ := Prod.mk.injEq .. ▸ Option.some.inj h
        subst hd
        rcases List.mem_cons.1 hx with h1 | h1
        · exact h1 ▸ List.mem_cons_self _ _
        · exact List.mem_cons_of_mem _ (ih p.1 p.2 (by rw [hcs]) x h1)

theorem braceSplit1_subset (cs : Str) (d r : Str)
    (h : braceSplit1 cs = some (d, r)) : ∀ x ∈ d, x ∈ cs := by
  cases cs with
  | nil => exact absurd h (by simp [braceSplit1])
  | cons c cs =>
    rw [braceSplit1] at h
    cases hcs : braceSplit cs with
    | none =>
      rw [hcs] at h
      exact absurd h (by simp)
    | some p =>
      rw [hcs] at h
      simp only [Option.map_some'] at h
      obtain ⟨hd, _⟩ := Prod.mk.injEq .. ▸ Option.some.inj h
      subst hd
      intro x hx
      rcases List.mem_cons.1 hx with h1 | h1
      · exact h1 ▸ List.mem_cons_self _ _
      · exact List.mem_cons_of_mem _
          (braceSplit_subset cs p.1 p.2 (by rw [hcs]) x h1)

theorem dateOf_ok (r : Str) (d : Str) (h : dateOf r = some d) :
    DateOk d ∧ ∀ x ∈ d, x ∈ r := by
  rw [dateOf] at h
  split at h
  · rename_i r2 heq
    cases hbs : braceSplit1 r2 with
    | none =>
      rw [hbs] at h
      exact absurd h (by simp)
    | some p =>
      rw [hbs] at h
      simp only [Option.map_some'] at h
      have hd := Option.some.inj h
      subst hd
      refine ⟨braceSplit1_reparse r2 p.1 p.2 (by rw [hbs]), ?_⟩
      intro x hx
      have h1 : x ∈ r2 := braceSplit1_subset r2 p.1 p.2 (by rw [hbs]) x hx
      have h2 : x ∈ r.dropWhile isJsSpace := by
        rw [heq]
        exact List.mem_cons_of_mem _ (List.mem_cons_of_mem _ h1)
      exact List.Sublist.mem h2
        (List.IsSuffix.sublist (List.dropWhile_suffix isJsSpace))
  · exact absurd h (by simp)

theorem splitDBr_subset_rest (cs : Str) :
    ∀ d r, splitDBr cs = some (d, r) → ∀ x ∈ r, x ∈ cs := by
  induction cs with
  | nil =>
    intro d r h
    exact absurd h (by simp [splitDBr])
  | cons c cs ih =>
    intro d r h x hx
    by_cases hc : c = ']' ∧ cs.head? = some ']'
    · rw [splitDBr, if_pos hc] at h
      obtain ⟨_, hr⟩ := Prod.mk.injEq .. ▸ Option.some.inj h
      subst hr
      exact List.mem_cons_of_mem _ (List.mem_of_mem_tail hx)
    · rw [splitDBr, if_neg hc] at h
      cases hcs : splitDBr cs with
      | none =>
        rw [hcs] at h
        exact absurd h (by simp)
      | some p =>
        rw [hcs] at h
        simp only [Option.map_some'] at h
        obtain ⟨_, hr⟩ := Prod.mk.injEq .. ▸ Option.some.inj h
        subst hr
        exact List.mem_cons_of_mem _ (ih p.1 p.2 (by rw [hcs]) x hx)

theorem titleSplit_subset_rest (cs : Str) (d r : Str)
    (h : titleSplit cs = some (d, r)) : ∀ x ∈ r, x ∈ cs := by
  cases cs with
  | nil => exact absurd h (by simp [titleSplit])
  | cons c cs =>
    rw [titleSplit] at h
    cases hcs : splitDBr cs with
    | none =>
      rw [hcs] at h
      exact absurd h (by simp)
    | some p =>
      rw [hcs] at h
      simp only [Option.map_some'] at h
      obtain ⟨_, hr⟩ := Prod.mk.injEq .. ▸ Option.some.inj h
      subst hr
      intro x hx
      exact List.mem_cons_of_mem _ (splitDBr_subset_rest cs p.1 p.2 (by rw [hcs]) x hx)

theorem itemOfLine_ok (l : Str) (it : BoardItem) (h : itemOfLine l = some it)
    (hnl : '\n' ∉ l) : ItemOk it := by
  unfold itemOfLine at h
  split at h
  · rename_i f rest
    by_cases hf : f = ' ' ∨ f = 'x'
    · rw [if_pos hf] at h
      cases hts : titleSplit rest with
      | none =>
        rw [hts] at h
        exact absurd h (by simp)
      | some p =>
        rw [hts] at h
        simp only [Option.map_some'] at h
        have hit := Option.some.inj h
        subst hit
        have hrest : '\n' ∉ rest := by
          intro hmem
          exact hnl (by simp [hmem])
        refine ⟨titleSplit_reparse rest p.1 p.2 (by rw [hts]), ?_, ?_⟩
        · intro hmem
          exact hrest (titleSplit_subset rest p.1 p.2 (by rw [hts]) _ hmem)
        · intro d hd
          simp only at hd
          obtain ⟨hdOk, hdsub⟩ := dateOf_ok p.2 d hd
          refine ⟨hdOk, ?_⟩
          intro hmem
          exact hrest
            (titleSplit_subset_rest rest p.1 p.2 (by rw [hts]) _ (hdsub _ hmem))
    · rw [if_neg hf] at h
      exact absurd h (by simp)
  · exact absurd h (by simp)

theorem headerRest_header (name : Str) (h : name ≠ []) :
    headerRest ('#' :: '#' :: ' ' :: name) = some name := by
  show (if name = [] then none else some name) = some name
  rw [if_neg h]

theorem headerRest_itemLineOf (it : BoardItem) :
    headerRest (itemLineOf it) = none := rfl

theorem checkboxChar_decide (b : Bool) : decide (checkboxChar b = 'x') = b := by
  cases b <;> simp [checkboxChar]

theorem itemOfLine_itemLineOf (it : BoardItem) (hok : ItemOk it) :
    itemOfLine (itemLineOf it) = some it := by
  obtain ⟨t, comp, date⟩ := it
  obtain ⟨htitle, hnl, hdate⟩ := hok
  simp only at htitle hnl hdate
  cases date with
  | none =>
    show itemOfLine ('-' :: ' ' :: '[' :: checkboxChar comp :: ']' :: ' ' ::
      '[' :: '[' :: (t ++ ']' :: ']' :: [])) = some ⟨t, comp, none⟩
    simp only [itemOfLine]
    rw [if_pos (by cases comp <;> simp [checkboxChar])]
    rw [htitle []]
    simp only [Option.map_some']
    rw [checkboxChar_decide]
    rfl
  | some d =>
    obtain ⟨hdOk, hdnl⟩ := hdate d rfl
    show itemOfLine ('-' :: ' ' :: '[' :: checkboxChar comp :: ']' :: ' ' ::
      '[' :: '[' :: (t ++ ']' :: ']' :: (' ' :: '@' :: '{' :: (d ++ ['}']))))
      = some ⟨t, comp, some d⟩
    simp only [itemOfLine]
    rw [if_pos (by cases comp <;> simp [checkboxChar])]
    rw [htitle (' ' :: '@' :: '{' :: (d ++ ['}']))]
    simp only [Option.map_some']
    rw [checkboxChar_decide]
    have h2 : dateOf (' ' :: '@' :: '{' :: (d ++ ['}'])) = some d := by
      rw [dateOf]
      have hdw : (' ' :: '@' :: '{' :: (d ++ ['}'])).dropWhile isJsSpace
          = '@' :: '{' :: (d ++ ['}']) := by
        rw [List.dropWhile_cons_of_pos (by decide),
          List.dropWhile_cons_of_neg (by decide)]
      rw [hdw]
      show (braceSplit1 (d ++ '}' :: [])).map (fun p => p.1) = some d
      rw [hdOk []]
      rfl
    rw [h2]

theorem dropWhile_dropWhile (p : Char → Bool) (l : Str) :
    (l.dropWhile p).dropWhile p = l.dropWhile p := by
  induction l with
  | nil => rfl
  | cons c cs ih =>
    by_cases h : p c = true
    · rw [List.dropWhile_cons_of_pos h, ih]
    · rw [List.dropWhile_cons_of_neg (by simp [h]),
        List.dropWhile_cons_of_neg (by simp [h])]

theorem trimChars_idem (l : Str) : trimChars (trimChars l) = trimChars l := by
  have key : ∀ A : Str, A.dropWhile isJsSpace = A →
      trimChars ((A.reverse.dropWhile isJsSpace).reverse)
        = (A.reverse.dropWhile isJsSpace).reverse := by
    intro A hAl
    have hsplit : A = (A.reverse.dropWhile isJsSpace).reverse
        ++ (A.reverse.takeWhile isJsSpace).reverse := by
      have htd := List.takeWhile_append_dropWhile (p := isJsSpace)
        (l := A.reverse)
      calc A = A.reverse.reverse := (List.reverse_reverse A).symm
        _ = (A.reverse.takeWhile isJsSpace
              ++ A.reverse.dropWhile isJsSpace).reverse := by rw [htd]
        _ = (A.reverse.dropWhile isJsSpace).reverse
              ++ (A.reverse.takeWhile isJsSpace).reverse := by
            rw [List.reverse_append]
    have hyl : ((A.reverse.dropWhile isJsSpace).reverse).dropWhile isJsSpace
        = (A.reverse.dropWhile isJsSpace).reverse := by
      cases hyc : (A.reverse.dropWhile isJsSpace).reverse with
      | nil => rfl
      | cons c ys =>
        rw [hyc] at hsplit
        rw [List.cons_append] at hsplit
        by_cases hc : isJsSpace c = true
        · exfalso
          have hthis := hAl
          rw [hsplit] at hthis
          rw [List.dropWhile_cons_of_pos hc] at hthis
          have hle : (List.dropWhile isJsSpace
              (ys ++ (A.reverse.takeWhile isJsSpace).reverse)).length
              ≤ (ys ++ (A.reverse.takeWhile isJsSpace).reverse).length :=
            List.Sublist.length_le
              (List.IsSuffix.sublist (List.dropWhile_suffix _))
          rw [hthis] at hle
          simp at hle
        · rw [List.dropWhile_cons_of_neg (by simp [hc])]
    have hyr : ((A.reverse.dropWhile isJsSpace).reverse).reverse.dropWhile
        isJsSpace = ((A.reverse.dropWhile isJsSpace).reverse).reverse := by
      rw [List.reverse_reverse]
      exact dropWhile_dropWhile _ _
    rw [trimChars, hyl, hyr, List.reverse_reverse]
  exact key (l.dropWhile isJsSpace) (dropWhile_dropWhile _ l)

theorem trimChars_subset (l : Str) (x : Char) (h : x ∈ trimChars l) :
    x ∈ l := by
  rw [trimChars] at h
  rw [List.mem_reverse] at h
  have h1 := List.Sublist.mem h
    (List.IsSuffix.sublist (List.dropWhile_suffix _))
  rw [List.mem_reverse] at h1
  exact List.Sublist.mem h1 (List.IsSuffix.sublist (List.dropWhile_suffix _))

theorem headerRest_shape (l rest : Str) (h : headerRest l = some rest) :
    l = '#' :: '#' :: ' ' :: rest := by
  unfold headerRest at h
  split at h
  · rename_i rest'
    by_cases hr : rest' = []
    · rw [if_pos hr] at h
      exact absurd h (by simp)
    · rw [if_neg hr] at h
      have := Option.some.inj h
      subst this
      rfl
  · exact absurd h (by simp)

theorem parseColumns_ok (ls : List Str) :
    ∀ acc, (∀ l ∈ ls, '\n' ∉ l) → (∀ c₀, acc = some c₀ → ColOk c₀) →
      ∀ c ∈ parseColumns acc ls, ColOk c := by
  induction ls with
  | nil =>
    intro acc _ hacc c hc
    simp only [parseColumns] at hc
    cases acc with
    | none => simp [Option.toList] at hc
    | some c₀ =>
      simp [Option.toList] at hc
      exact hc ▸ hacc c₀ rfl
  | cons l ls ih =>
    intro acc hnl hacc c hc
    have hnl_l := hnl l (List.mem_cons_self _ _)
    have hnl' : ∀ x ∈ ls, '\n' ∉ x :=
      fun x hx => hnl x (List.mem_cons_of_mem _ hx)
    simp only [parseColumns] at hc
    cases hh : headerRest l with
    | some rest =>
      simp only [hh] at hc
      rcases List.mem_append.1 hc with h1 | h1
      · cases acc with
        | none => simp [Option.toList] at h1
        | some c₀ =>
          simp [Option.toList] at h1
          exact h1 ▸ hacc c₀ rfl
      · refine ih (some ⟨trimChars rest, []⟩) hnl' ?_ c h1
        intro c₀ hc₀
        injection hc₀ with hc₀
        subst hc₀
        refine ⟨trimChars_idem rest, ?_, by simp⟩
        intro hmem
        have h2 : '\n' ∈ rest := trimChars_subset rest _ hmem
        have h3 := headerRest_shape l rest hh
        exact hnl_l (by
          rw [h3]
          exact List.mem_cons_of_mem _
            (List.mem_cons_of_mem _ (List.mem_cons_of_mem _ h2)))
    | none =>
      simp only [hh] at hc
      cases acc with
      | none =>
        exact ih none hnl' (by intro c₀ h; exact absurd h (by simp)) c hc
      | some col =>
        cases hi : itemOfLine l with
        | some it =>
          simp only [hi] at hc
          refine ih _ hnl' ?_ c hc
          intro c₀ hc₀
          injection hc₀ with hc₀
          subst hc₀
          obtain ⟨ht, hn, hits⟩ := hacc col rfl
          refine ⟨ht, hn, ?_⟩
          intro x hx
          rcases List.mem_append.1 hx with h1 | h1
          · exact hits x h1
          · have hxit : x = it := by simpa using h1
            subst hxit
            exact itemOfLine_ok l x hi hnl_l
        | none =>
          simp only [hi] at hc
          exact ih (some col) hnl' hacc c hc

theorem parseColumns_items (its : List BoardItem) :
    ∀ (acc : List BoardItem) (n : Str) (rest : List Str),
      (∀ it ∈ its, ItemOk it) →
      parseColumns (some ⟨n, acc⟩) (its.map itemLineOf ++ rest)
        = parseColumns (some ⟨n, acc ++ its⟩) rest := by
  induction its with
  | nil =>
    intro acc n rest _
    rw [List.map_nil, List.nil_append, List.append_nil]
  | cons it its ih =>
    intro acc n rest hok
    rw [List.map_cons, List.cons_append]
    have hline := itemOfLine_itemLineOf it (hok it (List.mem_cons_self _ _))
    simp only [parseColumns, headerRest_itemLineOf, hline]
    rw [ih (acc ++ [it]) n rest fun x hx => hok x (List.mem_cons_of_mem _ hx)]
    rw [List.append_assoc]
    rfl

theorem parseColumns_skip (l : Str) (hh : headerRest l = none)
    (hi : itemOfLine l = none) (col : BoardColumn) (rest : List Str) :
    parseColumns (some col) (l :: rest) = parseColumns (some col) rest := by
  simp only [parseColumns, hh, hi]

theorem parseColumns_skip_none (l : Str) (hh : headerRest l = none)
    (rest : List Str) :
    parseColumns none (l :: rest) = parseColumns none rest := by
  simp only [parseColumns, hh]

theorem parseColumns_flat (cs : List BoardColumn) :
    ∀ acc : Option BoardColumn,
      (∀ c ∈ cs, ColOk c ∧ c.name ≠ []) →
      parseColumns acc (cs.flatMap columnLines) = acc.toList ++ cs := by
  induction cs with
  | nil =>
    intro acc _
    rw [List.flatMap_nil, parseColumns, List.append_nil]
  | cons c cs ih =>
    intro acc hcs
    obtain ⟨⟨htrim, hnlname, hitems⟩, hne⟩ := hcs c (List.mem_cons_self _ _)
    have hcs' : ∀ c' ∈ cs, ColOk c' ∧ c'.name ≠ [] :=
      fun c' hc' => hcs c' (List.mem_cons_of_mem _ hc')
    rw [List.flatMap_cons, columnLines]
    rw [List.cons_append, List.cons_append]
    simp only [parseColumns, headerRest_header c.name hne, htrim,
      show headerRest ([] : Str) = none from rfl,
      show itemOfLine ([] : Str) = none from rfl]
    simp only [List.append_eq]
    rw [List.append_assoc, List.append_assoc]
    rw [parseColumns_items c.items [] c.name _ hitems]
    rw [List.nil_append]
    by_cases hdone : c.name = doneName
    · rw [if_pos hdone]
      simp only [List.cons_append, List.nil_append]
      rw [parseColumns_skip [] rfl rfl,
        parseColumns_skip completeMarker (by decide) (by decide),
        parseColumns_skip [] rfl rfl, ih _ hcs']
      rfl
    · rw [if_neg hdone]
      simp only [List.nil_append, List.singleton_append]
      rw [parseColumns_skip [] rfl rfl, ih _ hcs']
      rfl

theorem afterCloseLine_subset (ls : List Str) :
    ∀ after, afterCloseLine ls = some after → ∀ l ∈ after, l ∈ ls := by
  induction ls with
  | nil =>
    intro after h
    exact absurd h (by simp [afterCloseLine])
  | cons l₀ ls ih =>
    intro after h x hx
    rw [afterCloseLine] at h
    by_cases h0 : l₀ = dashesLine
    · rw [if_pos h0] at h
      have := Option.some.inj h
      subst this
      exact List.mem_cons_of_mem _ hx
    · rw [if_neg h0] at h
      exact List.mem_cons_of_mem _ (ih after h x hx)

theorem stripFrontmatter_subset (ls : List Str) :
    ∀ l ∈ stripFrontmatter ls, l = [] ∨ l ∈ ls := by
  cases ls with
  | nil =>
    intro l hl
    simp [stripFrontmatter] at hl
  | cons l₀ rest =>
    intro l hl
    rw [stripFrontmatter] at hl
    by_cases h0 : l₀ = dashesLine
    · rw [if_pos h0] at hl
      cases hac : afterCloseLine rest with
      | none =>
        rw [hac] at hl
        right
        exact hl
      | some after =>
        rw [hac] at hl
        rcases List.mem_cons.1 hl with h1 | h1
        · left
          exact h1
        · right
          exact List.mem_cons_of_mem _ (afterCloseLine_subset rest after hac l h1)
    · rw [if_neg h0] at hl
      right
      exact hl

theorem stripFrontmatter_boardLines (cols : List BoardColumn) :
    stripFrontmatter (boardLines cols)
      = [] :: [] :: cols.flatMap columnLines := by
  rw [boardLines, kanbanHeaderLines]
  simp only [List.cons_append, List.nil_append]
  rw [stripFrontmatter, if_pos rfl]
  rw [afterCloseLine, if_neg (by decide), afterCloseLine, if_pos rfl]

theorem itemLineOf_no_newline (it : BoardItem) (hok : ItemOk it) :
    '\n' ∉ itemLineOf it := by
  obtain ⟨t, comp, date⟩ := it
  obtain ⟨_, hnl, hdate⟩ := hok
  simp only at hnl hdate
  intro hmem
  rw [itemLineOf] at hmem
  simp only at hmem
  rcases List.mem_cons.1 hmem with h | h
  · exact absurd h (by decide)
  rcases List.mem_cons.1 h with h | h
  · exact absurd h (by decide)
  rcases List.mem_cons.1 h with h | h
  · exact absurd h (by decide)
  rcases List.mem_cons.1 h with h | h
  · cases comp <;> exact absurd h (by decide)
  rcases List.mem_cons.1 h with h | h
  · exact absurd h (by decide)
  rcases List.mem_cons.1 h with h | h
  · exact absurd h (by decide)
  rcases List.mem_cons.1 h with h | h
  · exact absurd h (by decide)
  rcases List.mem_cons.1 h with h | h
  · exact absurd h (by decide)
  rcases List.mem_append.1 h with h | h
  · exact hnl h
  rcases List.mem_cons.1 h with h | h
  · exact absurd h (by decide)
  rcases List.mem_cons.1 h with h | h
  · exact absurd h (by decide)
  cases date with
  | none => simp at h
  | some d =>
    obtain ⟨_, hdnl⟩ := hdate d rfl
    simp only at h
    rcases List.mem_cons.1 h with h | h
    · exact absurd h (by decide)
    rcases List.mem_cons.1 h with h | h
    · exact absurd h (by decide)
    rcases List.mem_cons.1 h with h | h
    · exact absurd h (by decide)
    rcases List.mem_append.1 h with h | h
    · exact hdnl h
    · rcases List.mem_cons.1 h with h | h
      · exact absurd h (by decide)
      · simp at h

theorem boardLines_no_newline (cols : List BoardColumn)
    (h : ∀ c ∈ cols, ColOk c) : ∀ l ∈ boardLines cols, '\n' ∉ l := by
  intro l hl
  rw [boardLines] at hl
  rcases List.mem_append.1 hl with h1 | h1
  · rw [kanbanHeaderLines] at h1
    rcases List.mem_cons.1 h1 with h2 | h2
    · subst h2; decide
    rcases List.mem_cons.1 h2 with h2 | h2
    · subst h2; decide
    rcases List.mem_cons.1 h2 with h2 | h2
    · subst h2; decide
    rcases List.mem_cons.1 h2 with h2 | h2
    · subst h2; simp
    · simp at h2
  · rw [List.mem_flatMap] at h1
    obtain ⟨c, hc, hlc⟩ := h1
    obtain ⟨htrim, hnlname, hitems⟩ := h c hc
    rw [columnLines] at hlc
    rcases List.mem_cons.1 hlc with h2 | h2
    · subst h2
      intro hmem
      rcases List.mem_cons.1 hmem with h3 | h3
      · exact absurd h3 (by decide)
      rcases List.mem_cons.1 h3 with h4 | h4
      · exact absurd h4 (by decide)
      rcases List.mem_cons.1 h4 with h5 | h5
      · exact absurd h5 (by decide)
      · exact hnlname h5
    rcases List.mem_cons.1 h2 with h3 | h3
    · subst h3
      simp
    simp only [List.append_eq] at h3
    rcases List.mem_append.1 h3 with h4 | h4
    · rcases List.mem_append.1 h4 with h5 | h5
      · rw [List.mem_map] at h5
        obtain ⟨it, hit, hil⟩ := h5
        subst hil
        exact itemLineOf_no_newline it (hitems it hit)
      · by_cases hdone : c.name = doneName
        · rw [if_pos hdone] at h5
          rcases List.mem_cons.1 h5 with h6 | h6
          · subst h6
            simp
          rcases List.mem_cons.1 h6 with h7 | h7
          · subst h7
            decide
          · simp at h7
        · rw [if_neg hdone] at h5
          simp at h5
    · have hle : l = [] := by simpa using h4
      subst hle
      simp

theorem boardLines_ne_nil (cols : List BoardColumn) : boardLines cols ≠ [] := by
  rw [boardLines, kanbanHeaderLines]
  simp

/-- **C2**.  Round-trip identity of the board codec: for any text whose
parsed columns all carry a nonempty name (the `## name` well-formedness
of the claim), parsing, serializing with `writeBoardFile`, and parsing
again yields exactly the same columns, items, completion flags and
dates. -/
theorem claim_C2_parse_write_roundtrip (text : Str)
    (hnames : ∀ c ∈ parseBoardFile text, c.name ≠ []) :
    parseBoardFile (writeBoardFile (parseBoardFile text))
      = parseBoardFile text := by
  have hok : ∀ c ∈ parseBoardFile text, ColOk c := by
    rw [parseBoardFile]
    apply parseColumns_ok
    · intro l hl
      rcases stripFrontmatter_subset _ l hl with h | h
      · subst h
        simp
      · exact splitLines_no_newline text l h
    · intro c₀ h
      exact absurd h (by simp)
  have hcs : ∀ c ∈ parseBoardFile text, ColOk c ∧ c.name ≠ [] :=
    fun c hc => ⟨hok c hc, hnames c hc⟩
  rw [writeBoardFile]
  show parseColumns none
    (stripFrontmatter (splitLines (joinLines (boardLines (parseBoardFile text)))))
    = parseBoardFile text
  rw [splitLines_joinLines _ (boardLines_ne_nil _)
    (boardLines_no_newline _ hok), stripFrontmatter_boardLines]
  rw [parseColumns_skip_none [] rfl, parseColumns_skip_none [] rfl]
  rw [parseColumns_flat _ none hcs]
  rfl

/-- **C2** witness: the round trip applied to a concrete scrambled but
well-formed board text. -/
theorem claim_C2_witness :
    parseBoardFile
        (writeBoardFile (parseBoardFile
          ("---\nkanban-plugin: basic\n---\n\n## Backlog\n- [ ] [[A]] @{2026-02-20}\nstray note\n\n## Done\n- [x] [[B]]\n\n**Complete**\n".toList)))
      = parseBoardFile
          ("---\nkanban-plugin: basic\n---\n\n## Backlog\n- [ ] [[A]] @{2026-02-20}\nstray note\n\n## Done\n- [x] [[B]]\n\n**Complete**\n".toList) :=
  claim_C2_parse_write_roundtrip
    ("---\nkanban-plugin: basic\n---\n\n## Backlog\n- [ ] [[A]] @{2026-02-20}\nstray note\n\n## Done\n- [x] [[B]]\n\n**Complete**\n".toList)
    (by decide)

/-! ## Helper lemmas for the sync theorem -/

theorem titleCount_pos_of_mem (cols : List BoardColumn) (s : Str)
    (h : s ∈ allTitles cols) : 1 ≤ titleCount cols s :=
  List.countP_pos_iff.2 ⟨s, h, by simp⟩

theorem countP_le_one_of_nodup (l : List Str) (s : Str) (h : l.Nodup) :
    (l.countP fun x => decide (x = s)) ≤ 1 := by
  induction l with
  | nil => simp
  | cons a l ih =>
    rw [List.nodup_cons] at h
    rw [List.countP_cons]
    by_cases ha : a = s
    · subst ha
      have hz : (l.countP fun x => decide (x = a)) = 0 := by
        rw [countP_eq_zero_iff]
        exact h.1
      simp [hz]
    · have := ih h.2
      simp [ha]
      omega

theorem colsContaining_singleton_of_count_one (cols : List BoardColumn)
    (s : Str) (h : titleCount cols s = 1) :
    ∃ n, colsContaining cols s = [n] := by
  induction cols with
  | nil => simp [titleCount, allTitles] at h
  | cons c rest ih =>
    rw [titleCount_cons] at h
    by_cases hc : (c.items.any fun i => decide (i.title = s)) = true
    · have hpos : 1 ≤ (c.items.map (·.title)).countP fun x => decide (x = s) := by
        obtain ⟨i, hi, hd⟩ := List.any_eq_true.1 hc
        exact List.countP_pos_iff.2 ⟨i.title, List.mem_map_of_mem _ hi, hd⟩
      have hrest : titleCount rest s = 0 := by omega
      refine ⟨c.name, ?_⟩
      rw [colsContaining_cons,
        colsContaining_eq_nil_of_absent rest s (absent_any_false rest s hrest)]
      simp [hc]
    · simp only [Bool.not_eq_true] at hc
      rw [countP_title_of_any_false hc] at h
      simp only [Nat.zero_add] at h
      obtain ⟨n, hn⟩ := ih h
      refine ⟨n, ?_⟩
      rw [colsContaining_cons, hn]
      simp [hc]

theorem filter_filter_ne (l : List Str) (t : Str) (q : Str → Bool)
    (hq : q t = false) :
    ((l.filter fun x => decide (x ≠ t)).filter q) = l.filter q := by
  induction l with
  | nil => rfl
  | cons a l ih =>
    rw [List.filter_cons]
    by_cases ha : a = t
    · rw [if_neg (by simp [ha])]
      rw [ih, List.filter_cons]
      subst ha
      rw [hq]
      simp
    · rw [if_pos (by simp [ha])]
      rw [List.filter_cons, List.filter_cons, ih]

theorem remove_filter_frame (cols : List BoardColumn) (t : Str)
    (q : Str → Bool) (hq : q t = false) :
    (allTitles (removeFromBoard cols t)).filter q
      = (allTitles cols).filter q := by
  rw [allTitles_removeFromBoard, filter_filter_ne _ _ _ hq]

theorem modify_add_filter (cols : List BoardColumn) (n : Str) (it : BoardItem)
    (q : Str → Bool) (hq : q it.title = false) :
    (allTitles (modifyFirstNamed cols n fun c => addIfMissing c it)).filter q
      = (allTitles cols).filter q := by
  induction cols with
  | nil => rfl
  | cons c rest ih =>
    by_cases hn : c.name = n
    · simp only [modifyFirstNamed, if_pos hn]
      rw [allTitles_cons, allTitles_cons, List.filter_append,
        List.filter_append]
      congr 1
      by_cases ha : (c.items.any fun i => decide (i.title = it.title)) = true
      · simp [addIfMissing, ha]
      · simp only [Bool.not_eq_true] at ha
        have hitems : (addIfMissing c it).items = c.items ++ [it] := by
          simp [addIfMissing, ha]
        rw [hitems, List.map_append, List.filter_append]
        simp [hq]
    · simp only [modifyFirstNamed, if_neg hn]
      rw [allTitles_cons, allTitles_cons, List.filter_append,
        List.filter_append, ih]

theorem add_filter_frame (cols : List BoardColumn) (t : Str) (status : Status)
    (d : Option Str) (q : Str → Bool) (hq : q t = false) :
    (allTitles (addToBoard cols t status d)).filter q
      = (allTitles cols).filter q := by
  unfold addToBoard
  split
  · exact modify_add_filter cols _ _ q hq
  · rw [allTitles_append, List.filter_append]
    simp [allTitles, newBoardItem, hq]

theorem syncTasksLoop_spec (cols0 : List BoardColumn)
    (h2 : (allTitles cols0).Nodup) :
    ∀ (rest : List SyncTask) (cols : List BoardColumn) (a m : Nat),
      ((rest.map (·.title)).Nodup) →
      (∀ t ∈ rest, titleCount cols t.title = titleCount cols0 t.title
        ∧ colsContaining cols t.title = colsContaining cols0 t.title) →
      (∀ t ∈ rest,
        titleCount (syncTasksLoop (allTitles cols0) rest cols a m).1 t.title = 1
        ∧ colsContaining (syncTasksLoop (allTitles cols0) rest cols a m).1
            t.title = [STATUS_TO_COLUMN t.status])
      ∧ (∀ s, (∀ t ∈ rest, t.title ≠ s) →
          titleCount (syncTasksLoop (allTitles cols0) rest cols a m).1 s
            = titleCount cols s
          ∧ colsContaining (syncTasksLoop (allTitles cols0) rest cols a m).1 s
            = colsContaining cols s)
      ∧ (∀ q : Str → Bool, (∀ t ∈ rest, q t.title = false) →
          (allTitles (syncTasksLoop (allTitles cols0) rest cols a m).1).filter q
            = (allTitles cols).filter q)
      ∧ (syncTasksLoop (allTitles cols0) rest cols a m).2.1
          = a + rest.countP (fun t => !(memStr (allTitles cols0) t.title))
      ∧ (syncTasksLoop (allTitles cols0) rest cols a m).2.2
          = m + rest.countP (fun t => memStr (allTitles cols0) t.title
              && decide (findColumn cols0 t.title
                  ≠ some (STATUS_TO_COLUMN t.status))) := by
  intro rest
  induction rest with
  | nil =>
    intro cols a m _ _
    refine ⟨by simp, ?_, ?_, by simp [syncTasksLoop], by simp [syncTasksLoop]⟩
    · intro s _
      exact ⟨rfl, rfl⟩
    · intro q _
      rfl
  | cons t rest' ih =>
    intro cols a m hnodup hpres
    obtain ⟨hct, hcc⟩ := hpres t (List.mem_cons_self _ _)
    have hpres' : ∀ t' ∈ rest', titleCount cols t'.title = titleCount cols0 t'.title
        ∧ colsContaining cols t'.title = colsContaining cols0 t'.title :=
      fun t' ht' => hpres t' (List.mem_cons_of_mem _ ht')
    rw [List.map_cons, List.nodup_cons] at hnodup
    have htnotin : t.title ∉ rest'.map (·.title) := hnodup.1
    have hnodup' := hnodup.2
    have hne_rest : ∀ t' ∈ rest', t'.title ≠ t.title := by
      intro t' ht' heq
      exact htnotin (heq ▸ List.mem_map_of_mem (·.title) ht')
    by_cases hmem : memStr (allTitles cols0) t.title = true
    · -- the task's title is on the initial board
      have htmem : t.title ∈ allTitles cols0 := (memStr_iff _ _).1 hmem
      have hcount0 : titleCount cols0 t.title = 1 :=
        Nat.le_antisymm (countP_le_one_of_nodup _ _ h2)
          (titleCount_pos_of_mem cols0 t.title htmem)
      obtain ⟨c₀, hc₀⟩ :=
        colsContaining_singleton_of_count_one cols0 t.title hcount0
      have hfind : findColumn cols t.title = some c₀ := by
        rw [findColumn_eq_head, hcc, hc₀]
        rfl
      have hfind0 : findColumn cols0 t.title = some c₀ := by
        rw [findColumn_eq_head, hc₀]
        rfl
      by_cases hneq : c₀ ≠ STATUS_TO_COLUMN t.status
      · -- move branch
        have hloop : syncTasksLoop (allTitles cols0) (t :: rest') cols a m
            = syncTasksLoop (allTitles cols0) rest'
                (moveOnBoard cols t.title t.status t.due_date) a (m + 1) := by
          rw [syncTasksLoop, if_pos hmem, hfind]
          simp only [if_pos hneq]
        have hmove_good :
            titleCount (moveOnBoard cols t.title t.status t.due_date) t.title = 1
            ∧ colsContaining (moveOnBoard cols t.title t.status t.due_date)
                t.title = [STATUS_TO_COLUMN t.status] := by
          rw [moveOnBoard]
          exact addToBoard_absent _ _ _ _
            (titleCount_removeFromBoard_self cols t.title)
        have hmove_frame : ∀ s, s ≠ t.title →
            titleCount (moveOnBoard cols t.title t.status t.due_date) s
              = titleCount cols s
            ∧ colsContaining (moveOnBoard cols t.title t.status t.due_date) s
              = colsContaining cols s := by
          intro s hs
          rw [moveOnBoard]
          constructor
          · rw [titleCount_addToBoard_ne _ _ _ _ _ hs,
              titleCount_removeFromBoard_ne _ _ _ hs]
          · rw [colsContaining_addToBoard_ne _ _ _ _ _ hs,
              colsContaining_removeFromBoard_ne _ _ _ hs]
        have hpres'' : ∀ t' ∈ rest',
            titleCount (moveOnBoard cols t.title t.status t.due_date) t'.title
              = titleCount cols0 t'.title
            ∧ colsContaining (moveOnBoard cols t.title t.status t.due_date)
                t'.title = colsContaining cols0 t'.title := by
          intro t' ht'
          obtain ⟨hf1, hf2⟩ := hmove_frame t'.title (hne_rest t' ht')
          obtain ⟨hp1, hp2⟩ := hpres' t' ht'
          exact ⟨hf1.trans hp1, hf2.trans hp2⟩
        obtain ⟨ih1, ih2, ih3, ih4, ih5⟩ :=
          ih (moveOnBoard cols t.title t.status t.due_date) a (m + 1)
            hnodup' hpres''
        rw [hloop]
        refine ⟨?_, ?_, ?_, ?_, ?_⟩
        · intro t' ht'
          rcases List.mem_cons.1 ht' with h1 | h1
          · subst h1
            obtain ⟨hq1, hq2⟩ := ih2 t'.title
              (fun x hx => hne_rest x hx)
            exact ⟨hq1.trans hmove_good.1, hq2.trans hmove_good.2⟩
          · exact ih1 t' h1
        · intro s hs
          obtain ⟨hq1, hq2⟩ := ih2 s fun x hx => hs x (List.mem_cons_of_mem _ hx)
          have hst : s ≠ t.title := (hs t (List.mem_cons_self _ _)).symm
          obtain ⟨hf1, hf2⟩ := hmove_frame s hst
          exact ⟨hq1.trans hf1, hq2.trans hf2⟩
        · intro q hq
          rw [ih3 q fun x hx => hq x (List.mem_cons_of_mem _ hx), moveOnBoard,
            add_filter_frame _ _ _ _ q (hq t (List.mem_cons_self _ _)),
            remove_filter_frame _ _ q (hq t (List.mem_cons_self _ _))]
        · rw [ih4, List.countP_cons]
          simp [hmem]
        · rw [ih5, List.countP_cons]
          have hpred : (memStr (allTitles cols0) t.title
              && decide (findColumn cols0 t.title
                  ≠ some (STATUS_TO_COLUMN t.status))) = true := by
            rw [hmem, hfind0]
            simp only [Bool.true_and, decide_eq_true_eq]
            intro hcontra
            exact hneq (Option.some.inj hcontra)
          rw [hpred, if_pos rfl]
          omega
      · -- already in the right column
        push_neg at hneq
        have hloop : syncTasksLoop (allTitles cols0) (t :: rest') cols a m
            = syncTasksLoop (allTitles cols0) rest' cols a m := by
          rw [syncTasksLoop, if_pos hmem, hfind]
          simp only [hneq]
          simp
        obtain ⟨ih1, ih2, ih3, ih4, ih5⟩ := ih cols a m hnodup' hpres'
        rw [hloop]
        refine ⟨?_, ?_, ?_, ?_, ?_⟩
        · intro t' ht'
          rcases List.mem_cons.1 ht' with h1 | h1
          · subst h1
            obtain ⟨hq1, hq2⟩ := ih2 t'.title fun x hx => hne_rest x hx
            refine ⟨?_, ?_⟩
            · rw [hq1, hct, hcount0]
            · rw [hq2, hcc, hc₀, hneq]
          · exact ih1 t' h1
        · intro s hs
          exact ih2 s fun x hx => hs x (List.mem_cons_of_mem _ hx)
        · intro q hq
          exact ih3 q fun x hx => hq x (List.mem_cons_of_mem _ hx)
        · rw [ih4, List.countP_cons]
          simp [hmem]
        · rw [ih5, List.countP_cons]
          have hpred : (memStr (allTitles cols0) t.title
              && decide (findColumn cols0 t.title
                  ≠ some (STATUS_TO_COLUMN t.status))) = false := by
            rw [hfind0, hneq]
            simp
          rw [hpred]
          simp
    · -- the task's title is absent from the initial board: add branch
      have hmem' : memStr (allTitles cols0) t.title = false := by
        simpa using hmem
      have hcount0 : titleCount cols0 t.title = 0 := by
        rw [titleCount_eq_zero_iff]
        intro hc
        rw [(memStr_iff _ _).2 hc] at hmem'
        exact Bool.noConfusion hmem'
      have hcount : titleCount cols t.title = 0 := by
        rw [hct, hcount0]
      have hloop : syncTasksLoop (allTitles cols0) (t :: rest') cols a m
          = syncTasksLoop (allTitles cols0) rest'
              (addToBoard cols t.title t.status t.due_date) (a + 1) m := by
        rw [syncTasksLoop, if_neg (by rw [hmem']; exact Bool.noConfusion)]
      have hadd_good := addToBoard_absent cols t.title t.status t.due_date hcount
      have hadd_frame : ∀ s, s ≠ t.title →
          titleCount (addToBoard cols t.title t.status t.due_date) s
            = titleCount cols s
          ∧ colsContaining (addToBoard cols t.title t.status t.due_date) s
            = colsContaining cols s := by
        intro s hs
        exact ⟨titleCount_addToBoard_ne _ _ _ _ _ hs,
          colsContaining_addToBoard_ne _ _ _ _ _ hs⟩
      have hpres'' : ∀ t' ∈ rest',
          titleCount (addToBoard cols t.title t.status t.due_date) t'.title
            = titleCount cols0 t'.title
          ∧ colsContaining (addToBoard cols t.title t.status t.due_date)
              t'.title = colsContaining cols0 t'.title := by
        intro t' ht'
        obtain ⟨hf1, hf2⟩ := hadd_frame t'.title (hne_rest t' ht')
        obtain ⟨hp1, hp2⟩ := hpres' t' ht'
        exact ⟨hf1.trans hp1, hf2.trans hp2⟩
      obtain ⟨ih1, ih2, ih3, ih4, ih5⟩ :=
        ih (addToBoard cols t.title t.status t.due_date) (a + 1) m
          hnodup' hpres''
      rw [hloop]
      refine ⟨?_, ?_, ?_, ?_, ?_⟩
      · intro t' ht'
        rcases List.mem_cons.1 ht' with h1 | h1
        · subst h1
          obtain ⟨hq1, hq2⟩ := ih2 t'.title fun x hx => hne_rest x hx
          exact ⟨hq1.trans hadd_good.1, hq2.trans hadd_good.2⟩
        · exact ih1 t' h1
      · intro s hs
        obtain ⟨hq1, hq2⟩ := ih2 s fun x hx => hs x (List.mem_cons_of_mem _ hx)
        have hst : s ≠ t.title := (hs t (List.mem_cons_self _ _)).symm
        obtain ⟨hf1, hf2⟩ := hadd_frame s hst
        exact ⟨hq1.trans hf1, hq2.trans hf2⟩
      · intro q hq
        rw [ih3 q fun x hx => hq x (List.mem_cons_of_mem _ hx),
          add_filter_frame _ _ _ _ q (hq t (List.mem_cons_self _ _))]
      · rw [ih4, List.countP_cons]
        rw [hmem']
        simp
        omega
      · rw [ih5, List.countP_cons]
        rw [hmem']
        simp

theorem pruneLoop_spec (fileTitles : List Str) :
    ∀ (snapshot : List Str) (cols : List BoardColumn) (r : Nat),
      (pruneLoop fileTitles snapshot cols r).2
        = r + snapshot.countP (fun s => !(memStr fileTitles s))
      ∧ (∀ s, memStr fileTitles s = true →
          titleCount (pruneLoop fileTitles snapshot cols r).1 s
            = titleCount cols s
          ∧ colsContaining (pruneLoop fileTitles snapshot cols r).1 s
            = colsContaining cols s)
      ∧ (∀ s, memStr fileTitles s = false → s ∈ snapshot →
          titleCount (pruneLoop fileTitles snapshot cols r).1 s = 0)
      ∧ (∀ s, s ∉ snapshot →
          titleCount (pruneLoop fileTitles snapshot cols r).1 s
            = titleCount cols s) := by
  intro snapshot
  induction snapshot with
  | nil =>
    intro cols r
    refine ⟨by simp [pruneLoop], ?_, ?_, ?_⟩
    · intro s _
      exact ⟨rfl, rfl⟩
    · intro s _ hmem
      simp at hmem
    · intro s _
      rfl
  | cons u rest ih =>
    intro cols r
    by_cases hu : memStr fileTitles u = true
    · have hloop : pruneLoop fileTitles (u :: rest) cols r
          = pruneLoop fileTitles rest cols r := by
        rw [pruneLoop, if_pos hu]
      obtain ⟨ih1, ih2, ih3, ih4⟩ := ih cols r
      rw [hloop]
      refine ⟨?_, ih2, ?_, ?_⟩
      · rw [ih1, List.countP_cons, hu]
        simp
      · intro s hs hmem
        rcases List.mem_cons.1 hmem with h1 | h1
        · subst h1
          rw [hu] at hs
          exact Bool.noConfusion hs
        · exact ih3 s hs h1
      · intro s hs
        exact ih4 s fun hh => hs (List.mem_cons_of_mem _ hh)
    · have hu' : memStr fileTitles u = false := by simpa using hu
      have hloop : pruneLoop fileTitles (u :: rest) cols r
          = pruneLoop fileTitles rest (removeFromBoard cols u) (r + 1) := by
        rw [pruneLoop, if_neg (by rw [hu']; exact Bool.noConfusion)]
      obtain ⟨ih1, ih2, ih3, ih4⟩ := ih (removeFromBoard cols u) (r + 1)
      rw [hloop]
      refine ⟨?_, ?_, ?_, ?_⟩
      · rw [ih1, List.countP_cons, hu']
        simp
        omega
      · intro s hs
        have hsu : s ≠ u := by
          intro hh
          rw [hh, hu'] at hs
          exact Bool.noConfusion hs
        obtain ⟨hq1, hq2⟩ := ih2 s hs
        exact ⟨hq1.trans (titleCount_removeFromBoard_ne _ _ _ hsu),
          hq2.trans (colsContaining_removeFromBoard_ne _ _ _ hsu)⟩
      · intro s hs hmem
        rcases List.mem_cons.1 hmem with h1 | h1
        · subst h1
          by_cases hrest : s ∈ rest
          · exact ih3 s hs hrest
          · rw [ih4 s hrest, titleCount_removeFromBoard_self]
        · exact ih3 s hs h1
      · intro s hs
        have hsu : s ≠ u := fun hh => hs (hh ▸ List.mem_cons_self _ _)
        rw [ih4 s fun hh => hs (List.mem_cons_of_mem _ hh),
          titleCount_removeFromBoard_ne _ _ _ hsu]

/-- **C1** counterexample.  The claim quantifies over every starting
board; when a task's title appears in two columns and its first
occurrence already sits in the column its status maps to, the sync loop
moves nothing and the orphan pass keeps both items (the title is a task
title), so the task ends up in two columns after one sync call. -/
theorem claim_C1_counterexample :
    syncBoardWithFiles [⟨"A".toList, .backlog, none⟩]
        [⟨"Backlog".toList, [⟨"A".toList, false, none⟩]⟩,
         ⟨"Working".toList, [⟨"A".toList, false, none⟩]⟩]
      = ⟨[⟨"Backlog".toList, [⟨"A".toList, false, none⟩]⟩,
          ⟨"Working".toList, [⟨"A".toList, false, none⟩]⟩], 0, 0, 0⟩
    ∧ colsContaining
        (syncBoardWithFiles [⟨"A".toList, .backlog, none⟩]
          [⟨"Backlog".toList, [⟨"A".toList, false, none⟩]⟩,
           ⟨"Working".toList, [⟨"A".toList, false, none⟩]⟩]).board "A".toList
      = ["Backlog".toList, "Working".toList] := by
  decide

/-- **C1** (amended).  When the active tasks carry distinct titles and
the starting board holds no duplicate item titles, a single
`syncBoardWithFiles` call converges: every task ends in exactly one
column, the one its status maps to; every remaining item title is a task
title; and the returned counts are exactly the tasks missing from the
initial board (added), the tasks found in a wrong column of the initial
board (moved), and the initial orphan items (removed). -/
theorem claim_C1_sync_converges (tasks : List SyncTask)
    (cols : List BoardColumn)
    (h1 : (tasks.map (·.title)).Nodup)
    (h2 : (allTitles cols).Nodup) :
    (∀ t ∈ tasks,
      titleCount (syncBoardWithFiles tasks cols).board t.title = 1
      ∧ colsContaining (syncBoardWithFiles tasks cols).board t.title
          = [STATUS_TO_COLUMN t.status])
    ∧ (∀ s, titleCount (syncBoardWithFiles tasks cols).board s ≠ 0
        → s ∈ tasks.map (·.title))
    ∧ (syncBoardWithFiles tasks cols).added
        = tasks.countP (fun t => !(memStr (allTitles cols) t.title))
    ∧ (syncBoardWithFiles tasks cols).moved
        = tasks.countP (fun t => memStr (allTitles cols) t.title
            && decide (findColumn cols t.title
                ≠ some (STATUS_TO_COLUMN t.status)))
    ∧ (syncBoardWithFiles tasks cols).removed
        = (allTitles cols).countP
            (fun s => !(memStr (tasks.map (·.title)) s)) := by
  obtain ⟨g1, g2, g3, g4, g5⟩ :=
    syncTasksLoop_spec cols h2 tasks cols 0 0 h1 (fun t _ => ⟨rfl, rfl⟩)
  obtain ⟨p1, p2, p3, p4⟩ :=
    pruneLoop_spec (tasks.map (·.title))
      (allTitles (syncTasksLoop (allTitles cols) tasks cols 0 0).1)
      (syncTasksLoop (allTitles cols) tasks cols 0 0).1 0
  have hres : syncBoardWithFiles tasks cols
      = ⟨(pruneLoop (tasks.map (·.title))
            (allTitles (syncTasksLoop (allTitles cols) tasks cols 0 0).1)
            (syncTasksLoop (allTitles cols) tasks cols 0 0).1 0).1,
         (syncTasksLoop (allTitles cols) tasks cols 0 0).2.1,
         (syncTasksLoop (allTitles cols) tasks cols 0 0).2.2,
         (pruneLoop (tasks.map (·.title))
            (allTitles (syncTasksLoop (allTitles cols) tasks cols 0 0).1)
            (syncTasksLoop (allTitles cols) tasks cols 0 0).1 0).2⟩ := rfl
  rw [hres]
  refine ⟨?_, ?_, ?_, ?_, ?_⟩
  · intro t ht
    have hmem : memStr (tasks.map (·.title)) t.title = true :=
      (memStr_iff _ _).2 (List.mem_map_of_mem (·.title) ht)
    obtain ⟨hq1, hq2⟩ := p2 t.title hmem
    obtain ⟨hg1, hg2⟩ := g1 t ht
    exact ⟨hq1.trans hg1, hq2.trans hg2⟩
  · intro s hs
    by_contra hnot
    have hmem : memStr (tasks.map (·.title)) s = false := by
      cases hm : memStr (tasks.map (·.title)) s
      · rfl
      · exact absurd ((memStr_iff _ _).1 hm) hnot
    by_cases hsnap :
        s ∈ allTitles (syncTasksLoop (allTitles cols) tasks cols 0 0).1
    · exact hs (p3 s hmem hsnap)
    · apply hs
      rw [p4 s hsnap, titleCount_eq_zero_iff]
      exact hsnap
  · simpa using g4
  · simpa using g5
  · rw [p1]
    rw [Nat.zero_add]
    have hq := g3 (fun s => !(memStr (tasks.map (·.title)) s)) ?_
    · rw [List.countP_eq_length_filter, List.countP_eq_length_filter, hq]
    · intro t ht
      have hmem : memStr (tasks.map (·.title)) t.title = true :=
        (memStr_iff _ _).2 (List.mem_map_of_mem (·.title) ht)
      simp [hmem]

/-- Witness for C1: one working-status task and a board holding it in
the Backlog column satisfy both hypotheses, and one sync call leaves the
task in exactly one column, the Working column. -/
theorem claim_C1_witness :
    (([(⟨"A".toList, .working, none⟩ : SyncTask)].map (·.title)).Nodup
      ∧ (allTitles
          [(⟨"Backlog".toList, [⟨"A".toList, false, none⟩]⟩
            : BoardColumn)]).Nodup)
    ∧ titleCount (syncBoardWithFiles
          [(⟨"A".toList, .working, none⟩ : SyncTask)]
          [(⟨"Backlog".toList, [⟨"A".toList, false, none⟩]⟩
            : BoardColumn)]).board "A".toList = 1
    ∧ colsContaining (syncBoardWithFiles
          [(⟨"A".toList, .working, none⟩ : SyncTask)]
          [(⟨"Backlog".toList, [⟨"A".toList, false, none⟩]⟩
            : BoardColumn)]).board "A".toList
        = [STATUS_TO_COLUMN .working] :=
  ⟨⟨by decide, by decide⟩,
    ((claim_C1_sync_converges
        [(⟨"A".toList, .working, none⟩ : SyncTask)]
        [(⟨"Backlog".toList, [⟨"A".toList, false, none⟩]⟩ : BoardColumn)]
        (by decide) (by decide)).1
      ⟨"A".toList, .working, none⟩ (by decide)).1,
    ((claim_C1_sync_converges
        [(⟨"A".toList, .working, none⟩ : SyncTask)]
        [(⟨"Backlog".toList, [⟨"A".toList, false, none⟩]⟩ : BoardColumn)]
        (by decide) (by decide)).1
      ⟨"A".toList, .working, none⟩ (by decide)).2⟩
